import Mathlib

/-!
Verification of the repetitiveness-measure tool (`src/main.cpp`).

The program loads a byte text, appends a sentinel `0`, and computes the
statistics `sigma`, `h0`, `r` (BWT runs), `z78`, `z77` and `delta` from the
text and externally provided suffix array / inverse suffix array / LCP
arrays.  This file gives a shallow embedding of those kernels over
`List Nat` byte sequences and settles the specification claims about them.
-/

namespace Repetitiveness

/-- Logical text length `n′ = n - 1` (the sentinel is not counted). -/
def actualN (T : List Nat) : Nat := T.length - 1

/-- Strict lexicographic order on byte sequences (shorter sequence that is a
prefix of the other counts as smaller), as used to define suffix order. -/
def lexLt : List Nat → List Nat → Bool
  | [], [] => false
  | [], _ :: _ => true
  | _ :: _, [] => false
  | a :: as, b :: bs => if a < b then true else if a = b then lexLt as bs else false

/-- Length of the longest common starting segment of two byte sequences. -/
def lcpLen : List Nat → List Nat → Nat
  | a :: as, b :: bs => if a = b then lcpLen as bs + 1 else 0
  | _, _ => 0

/-- Validity of the loaded text: at least one logical byte, the final byte is
the sentinel `0`, and no other byte is zero. -/
abbrev ValidText (T : List Nat) : Prop :=
  2 ≤ T.length ∧ T.getD (T.length - 1) 1 = 0 ∧ ∀ i, i < T.length - 1 → T.getD i 0 ≠ 0

/-- The externally provided array `sa` is the suffix array of `T`: in-range
entries and strictly increasing suffixes in lexicographic order. -/
abbrev IsSuffixArray (T sa : List Nat) : Prop :=
  sa.length = T.length ∧ (∀ i, i < T.length → sa.getD i 0 < T.length) ∧
    ∀ j, j < T.length → ∀ i, i < j →
      lexLt (T.drop (sa.getD i 0)) (T.drop (sa.getD j 0)) = true

/-- The externally provided array `isa` is the inverse of `sa`. -/
abbrev IsISA (T sa isa : List Nat) : Prop :=
  isa.length = T.length ∧
    ∀ i, i < T.length → isa.getD i 0 < T.length ∧ sa.getD (isa.getD i 0) 0 = i

/-- The externally provided `lcp` array: `lcp[i]` is the longest common
starting segment of the suffixes at ranks `i-1` and `i` (entry `0` unused). -/
abbrev IsLCP (T sa lcp : List Nat) : Prop :=
  lcp.length = T.length ∧
    ∀ i, 1 ≤ i → i < T.length →
      lcp.getD i 0 = lcpLen (T.drop (sa.getD (i - 1) 0)) (T.drop (sa.getD i 0))

/-! ## Histogram kernel: `sigma` and `h0` -/

/-- Alphabet size: number of byte values with a positive count in the logical
text (the histogram loop of the source runs over `T[0..n′)`). -/
def sigmaOf (T' : List Nat) : Nat :=
  (List.range 256).countP (fun c => decide (0 < T'.count c))

/-- Zeroth-order empirical entropy
`h0 = Σ_c (nc/n′) · log₂(n′/nc)` over bytes with positive count. -/
noncomputable def h0Of (T' : List Nat) : ℝ :=
  ∑ c ∈ Finset.range 256,
    (if 0 < T'.count c then
      ((T'.count c : ℝ) / (T'.length : ℝ)) * Real.logb 2 ((T'.length : ℝ) / (T'.count c : ℝ))
    else 0)

/-! ## BWT run counter -/

/-- `BWT(i) = T[SA[i]-1]` if `SA[i] > 0`, else `T[n-1]`. -/
def bwtAt (T sa : List Nat) (i : Nat) : Nat :=
  if 0 < sa.getD i 0 then T.getD (sa.getD i 0 - 1) 0 else T.getD (T.length - 1) 0

/-- The run counter of the source: scan `i = 1 .. n-1` keeping the previous
BWT symbol in `last` and counting changes, except when `last` is the
sentinel (`last != 0` in the source). -/
def rCode (T sa : List Nat) : Nat :=
  ((List.range' 1 (T.length - 1)).foldl
    (fun st i =>
      let c := bwtAt T sa i
      (c, if st.1 ≠ 0 ∧ c ≠ st.1 then st.2 + 1 else st.2))
    (bwtAt T sa 0, 0)).2

/-- Plain boundary count claimed by the spec sentence: positions `i ∈ [1, n)`
with `BWT(i) ≠ BWT(i-1)`, with no sentinel exception. -/
def bwtPlainCount (T sa : List Nat) : Nat :=
  (List.range' 1 (T.length - 1)).countP
    (fun i => decide (bwtAt T sa i ≠ bwtAt T sa (i - 1)))

/-- Boundary count with the sentinel exception of the source: positions
`i ∈ [1, n)` with `BWT(i-1) ≠ 0` and `BWT(i) ≠ BWT(i-1)`. -/
def bwtRunsAmended (T sa : List Nat) : Nat :=
  (List.range' 1 (T.length - 1)).countP
    (fun i => decide (bwtAt T sa (i - 1) ≠ 0 ∧ bwtAt T sa i ≠ bwtAt T sa (i - 1)))

/-! ## LZ78 trie -/

/-- A trie node as in the source: byte label and child/sibling links
(`NIL` is modelled by `none`). -/
structure TrieNode where
  label : Nat
  first_child : Option Nat
  next_sibling : Option Nat
deriving DecidableEq

/-- The node store; node `0` is the root. -/
structure Trie where
  nodes : List TrieNode
deriving DecidableEq

/-- The freshly constructed trie: just the root node. -/
def Trie.init : Trie := ⟨[⟨0, none, none⟩]⟩

/-- Read a node from the store (out-of-range reads give a blank node; the
source never performs them on the states we prove about). -/
def Trie.getN (t : Trie) (v : Nat) : TrieNode :=
  t.nodes.getD v ⟨0, none, none⟩

/-- Overwrite the `next_sibling` field of node `v`. -/
def Trie.setNS (t : Trie) (v : Nat) (s : Option Nat) : Trie :=
  ⟨t.nodes.set v { t.getN v with next_sibling := s }⟩

/-- Overwrite the `first_child` field of node `v`. -/
def Trie.setFC (t : Trie) (v : Nat) (s : Option Nat) : Trie :=
  ⟨t.nodes.set v { t.getN v with first_child := s }⟩

/-- The child-list scan of `try_get_child`: walk the sibling chain starting
at `cur`, remembering the previous node, until a node labelled `c` is found.
The fuel argument bounds the walk by the store size. -/
def Trie.tryAux (t : Trie) (c : Nat) : Nat → Option Nat → Option Nat → Option (Nat × Option Nat)
  | 0, _, _ => none
  | _ + 1, _, none => none
  | fuel + 1, prev, some v =>
    if (t.getN v).label = c then some (v, prev)
    else Trie.tryAux t c fuel (some v) (t.getN v).next_sibling

/-- The move-to-front splice of `try_get_child`, performed when the found
child `v` has a predecessor `p` in the sibling list of `u`. -/
def Trie.mtf (t : Trie) (u v p : Nat) : Trie :=
  let t1 := t.setNS p (t.getN v).next_sibling
  let t2 := t1.setNS v (t1.getN u).first_child
  t2.setFC u (some v)

/-- `try_get_child(u, c)`: find the child of `u` labelled `c`, splicing it to
the front of the child list when it is not already there.  Returns the child
and the updated trie, or `none` when no such child exists. -/
def Trie.tryGetChild (t : Trie) (u c : Nat) : Option (Nat × Trie) :=
  match Trie.tryAux t c t.nodes.length none (t.getN u).first_child with
  | none => none
  | some (v, none) => some (v, t)
  | some (v, some p) => some (v, t.mtf u v p)

/-- `insert_child(u, c)`: append a fresh node labelled `c` to the store and
link it at the front of the child list of `u`. -/
def Trie.insertChild (t : Trie) (u c : Nat) : Nat × Trie :=
  let v := t.nodes.length
  let t1 : Trie := ⟨t.nodes ++ [⟨c, none, none⟩]⟩
  let t2 := t1.setNS v (t1.getN u).first_child
  (v, t2.setFC u (some v))

/-- One step of the LZ78 loop of the source on state (trie, current node,
phrase count). -/
def z78Step (st : Trie × Nat × Nat) (c : Nat) : Trie × Nat × Nat :=
  match st.1.tryGetChild st.2.1 c with
  | some (v, t) => (t, v, st.2.2)
  | none => ((st.1.insertChild st.2.1 c).2, 0, st.2.2 + 1)

/-- The LZ78 phrase counter of the source over the logical text. -/
def z78Code (T' : List Nat) : Nat :=
  let st := T'.foldl z78Step (Trie.init, 0, 0)
  if st.2.1 ≠ 0 then st.2.2 + 1 else st.2.2

/-! ## LZ77 kernel -/

/-- The `lce` lambda of the source: byte-wise comparison from offsets `i` and
`j`, stopping at `actual_n`.  The fuel argument is the remaining number of
comparisons; `lce77` supplies enough for the loop to run to its bound. -/
def lceAux (T : List Nat) (an : Nat) : Nat → Nat → Nat → Nat
  | 0, _, _ => 0
  | fuel + 1, i, j =>
    if i < an ∧ j < an ∧ T.getD i 0 = T.getD j 0 then lceAux T an fuel (i + 1) (j + 1) + 1
    else 0

/-- `lce(i, j)` of the source. -/
def lce77 (T : List Nat) (an i j : Nat) : Nat := lceAux T an an i j

/-- The PSV scan: starting just below `cur_pos`, walk down while
`sa[p] > i`; result is the first rank with `sa[p] ≤ i`, if any.  The
argument is one above the rank to inspect next, so `psvScan sa i cur`
scans ranks `cur-1, cur-2, …, 0`. -/
def psvScan (sa : List Nat) (i : Nat) : Nat → Option Nat
  | 0 => none
  | p + 1 => if i < sa.getD p 0 then psvScan sa i p else some p

/-- The NSV scan of the source: walk `p` upward while `p < actual_n` and
`sa[p] > i`; note the bound is `actual_n`, not `n`, exactly as in the code. -/
def nsvScan (sa : List Nat) (i an : Nat) : Nat → Nat → Option Nat
  | 0, _ => none
  | fuel + 1, p =>
    if p < an then (if i < sa.getD p 0 then nsvScan sa i an fuel (p + 1) else some p)
    else none

/-- Factor length chosen by the source at position `i`:
`max(1, max(psv_lcp, nsv_lcp))`. -/
def z77Stride (T sa isa : List Nat) (an i : Nat) : Nat :=
  max 1 (max
    (match psvScan sa i (isa.getD i 0) with
      | some p => lce77 T an i (sa.getD p 0)
      | none => 0)
    (match nsvScan sa i an an (isa.getD i 0 + 1) with
      | some p => lce77 T an i (sa.getD p 0)
      | none => 0))

/-- The factorisation loop; `none` marks fuel exhaustion before the position
reached `actual_n` (shown impossible for fuel `actual_n`). -/
def z77Aux (T sa isa : List Nat) (an : Nat) : Nat → Nat → Option Nat
  | 0, i => if i < an then none else some 0
  | fuel + 1, i =>
    if i < an then (z77Aux T sa isa an fuel (i + z77Stride T sa isa an i)).map (· + 1)
    else some 0

/-- The LZ77 phrase counter of the source. -/
def z77Code (T sa isa : List Nat) : Option Nat :=
  z77Aux T sa isa (actualN T) (actualN T) 0

/-! ## Delta kernel -/

/-- The `dk` counter array: start from `n` zeroes and increment slot
`lcp[i] + 1` for every `i ∈ [1, n)`. -/
def dkList (n : Nat) (lcp : List Nat) : List Nat :=
  (List.range' 1 (n - 1)).foldl
    (fun dk i => dk.set (lcp.getD i 0 + 1) (dk.getD (lcp.getD i 0 + 1) 0 + 1))
    (List.replicate n 0)

/-- `std::max` on rationals, written so that it evaluates by kernel
reduction. -/
def maxQ (a b : ℚ) : ℚ := if a ≤ b then b else a

/-- The delta kernel of the source: `x` starts as `dk[1]`, `delta` as `x`,
and for `k = 2, …, n-1` the code sets `x ← x + dk[k] - 1` and
`delta ← max(delta, x / k)`.  Arithmetic is modelled exactly over `ℚ`. -/
def deltaCode (n : Nat) (lcp : List Nat) : ℚ :=
  let dk := dkList n lcp
  let x0 : ℚ := (dk.getD 1 0 : ℚ)
  ((List.range' 2 (n - 2)).foldl
    (fun (st : ℚ × ℚ) k =>
      let x := st.1 + (dk.getD k 0 : ℚ) - 1
      (x, maxQ st.2 (x / (k : ℚ))))
    (x0, x0)).2

/-! ## Text loader and exit codes -/

/-- The loader's zero-byte scan: some position strictly before the last holds
a zero byte. -/
abbrev InteriorZero (s : List Nat) : Prop :=
  ∃ i, i < s.length - 1 ∧ s.getD i 1 = 0

/-- Executable form of the loader's zero-byte scan
(`s[i] == 0 && i < s.size() - 1` inside the copy loop). -/
def interiorZeroB (s : List Nat) : Bool :=
  (List.range s.length).any (fun i => s.getD i 1 == 0 && decide (i + 1 < s.length))

/-- The text loader: reject interior zero bytes with exit code `-2`, then
append the sentinel unless the final byte is already zero. -/
def loadText (s : List Nat) : Except Int (List Nat) :=
  if interiorZeroB s then .error (-2)
  else .ok (if s.getD (s.length - 1) 1 ≠ 0 then s ++ [0] else s)

/-- The loader with its indexing made explicit: the check
`text[text.size()-1] != 0` is an out-of-bounds access (`none`) exactly when
the buffer is empty. -/
def loadTextChecked (s : List Nat) : Option (Except Int (List Nat)) :=
  if interiorZeroB s then some (.error (-2))
  else
    match s.get? (s.length - 1) with
    | none => none
    | some last => some (.ok (if last ≠ 0 then s ++ [0] else s))

/-- Length of the loaded text (0 when rejected); the program prints
`n = text.size() - 1`. -/
def loadedLen (s : List Nat) : Nat :=
  match loadText s with
  | .ok t => t.length
  | .error _ => 0

/-- Exit code of a run: `-1` when the FILE argument is missing, otherwise
the loader's verdict (`-2` on interior zero), and `0` on success. -/
def progExit (argFile : Option (List Nat)) : Int :=
  match argFile with
  | none => -1
  | some s =>
    match loadText s with
    | .error e => e
    | .ok _ => 0

/-! ## Specification-side definitions -/

/-- One step of the standard greedy LZ78 parse over a dictionary of words:
extend the current word by `c` when the extension is already a phrase,
otherwise record the extension as a new phrase and restart from the empty
word. -/
def z78SpecStep (st : List (List Nat) × List Nat × Nat) (c : Nat) : List (List Nat) × List Nat × Nat :=
  if (st.2.1 ++ [c]) ∈ st.1 then (st.1, st.2.1 ++ [c], st.2.2)
  else ((st.2.1 ++ [c]) :: st.1, [], st.2.2 + 1)

/-- Number of phrases of the standard greedy LZ78 parse, with a final phrase
when the parse ends in the middle of a dictionary word. -/
def z78Spec (T' : List Nat) : Nat :=
  let st := T'.foldl z78SpecStep ([], [], 0)
  if st.2.1 ≠ [] then st.2.2 + 1 else st.2.2

/-- `L(i)`: length of the longest starting segment of `T'[i..)` that also
occurs at some position `j < i` (occurrences may overlap position `i`). -/
def longestEarlier (T' : List Nat) (i : Nat) : Nat :=
  Nat.findGreatest
    (fun l => ((List.range i).any (fun j => (T'.drop j).take l == (T'.drop i).take l)) = true)
    (T'.length - i)

/-- The greedy LZ77 parse of the specification: from position `i` the next
phrase has length `max(1, L(i))`. -/
def z77GreedyAux (T' : List Nat) : Nat → Nat → Nat
  | 0, _ => 0
  | fuel + 1, i =>
    if i < T'.length then z77GreedyAux T' fuel (i + max 1 (longestEarlier T' i)) + 1
    else 0

/-- Number of phrases of the greedy LZ77 parse over the logical text. -/
def z77Greedy (T' : List Nat) : Nat := z77GreedyAux T' T'.length 0

/-- All length-`k` windows of a byte sequence, in order of start position. -/
def windowsK (T : List Nat) (k : Nat) : List (List Nat) :=
  (List.range (T.length + 1 - k)).map (fun j => (T.drop j).take k)

/-- Number of distinct length-`k` windows. -/
def dcount (T : List Nat) (k : Nat) : Nat := (windowsK T k).toFinset.card

/-- `max_{k=1..|T|} (distinct length-k windows of T) / k` over `ℚ`
(zero when the sequence is empty). -/
def deltaSpecFrom (T : List Nat) : ℚ :=
  ((List.range' 1 T.length).map (fun k => (dcount T k : ℚ) / (k : ℚ))).foldr maxQ 0

/-! ## Loader lemmas and claims about exit codes -/

theorem interiorZeroB_iff (s : List Nat) : interiorZeroB s = true ↔ InteriorZero s := by
  unfold interiorZeroB InteriorZero
  simp only [List.any_eq_true, List.mem_range, Bool.and_eq_true, beq_iff_eq,
    decide_eq_true_eq]
  constructor
  · rintro ⟨i, _, hz, hlt⟩
    exact ⟨i, by omega, hz⟩
  · rintro ⟨i, hlt, hz⟩
    exact ⟨i, by omega, hz, by omega⟩

theorem interiorZeroB_eq_false_iff (s : List Nat) :
    interiorZeroB s = false ↔ ¬ InteriorZero s := by
  rw [← interiorZeroB_iff]
  cases interiorZeroB s <;> simp

/-- C6: the program exits with code 0 on success, with code −1 when the FILE
argument is missing, and (for a non-empty input buffer, the loader's
precondition) with code −2 exactly when the loaded bytes contain an interior
zero byte. -/
theorem exit_codes_spec :
    progExit none = -1 ∧
    ∀ s : List Nat, s ≠ [] →
      (progExit (some s) = -2 ↔ InteriorZero s) ∧
      (progExit (some s) = 0 ↔ ¬ InteriorZero s) := by
  refine ⟨rfl, fun s _ => ?_⟩
  unfold progExit loadText
  cases h : interiorZeroB s
  · have hn : ¬ InteriorZero s := (interiorZeroB_eq_false_iff s).mp h
    simp [h, hn]
  · have hy : InteriorZero s := (interiorZeroB_iff s).mp h
    simp [h, hy]

/-- Witness for C6 at concrete inputs. -/
theorem exit_codes_spec_witness :
    ([97, 0, 98] : List Nat) ≠ [] ∧ progExit (some [97, 0, 98]) = -2 :=
  ⟨by decide, ((exit_codes_spec.2 [97, 0, 98] (by decide)).1).mpr (by decide)⟩

/-- C8: all loader indexing is in bounds exactly for non-empty inputs: the
checked loader never fails on a non-empty buffer, and on the empty buffer the
final sentinel check `text[text.size()-1]` is out of bounds. -/
theorem loader_bounds_iff_nonempty :
    (∀ s : List Nat, s ≠ [] → (loadTextChecked s).isSome = true) ∧
      loadTextChecked ([] : List Nat) = none := by
  constructor
  · intro s hs
    unfold loadTextChecked
    have hlen : 0 < s.length := List.length_pos.mpr hs
    have hlt : s.length - 1 < s.length := by omega
    rw [List.get?_eq_get hlt]
    cases h : interiorZeroB s <;> simp
  · rfl

/-- Witness for C8 at a concrete input. -/
theorem loader_bounds_iff_nonempty_witness :
    (loadTextChecked [5]).isSome = true :=
  loader_bounds_iff_nonempty.1 [5] (by decide)

/-- C9: an input whose final byte is zero (and with no interior zero) is
accepted, no extra sentinel is appended, and the printed `n` is the file
length minus one. -/
theorem trailing_zero_accepted :
    ∀ s : List Nat, s ≠ [] → ¬ InteriorZero s → s.getD (s.length - 1) 1 = 0 →
      loadText s = Except.ok s ∧ progExit (some s) = 0 ∧
        loadedLen s - 1 = s.length - 1 := by
  intro s _ hnz hlast
  have hok : loadText s = Except.ok s := by
    unfold loadText
    rw [(interiorZeroB_eq_false_iff s).mpr hnz, hlast]
    simp
  refine ⟨hok, ?_, ?_⟩
  · simp only [progExit, hok]
  · simp only [loadedLen, hok]

/-- Witness for C9 at a concrete input. -/
theorem trailing_zero_accepted_witness :
    loadText [97, 0] = Except.ok [97, 0] ∧ progExit (some [97, 0]) = 0 ∧
      loadedLen [97, 0] - 1 = ([97, 0] : List Nat).length - 1 :=
  trailing_zero_accepted [97, 0] (by decide)
    (by intro h; revert h; decide) (by decide)

/-! ## C7: sigma and h0 are invariant under byte permutations -/

/-- C7: replacing the logical text by any permutation of its bytes leaves
both the computed alphabet size and the computed zeroth-order entropy
unchanged, since both only depend on the byte histogram. -/
theorem sigma_h0_perm_invariant :
    ∀ T1 T2 : List Nat, T1.Perm T2 → sigmaOf T1 = sigmaOf T2 ∧ h0Of T1 = h0Of T2 := by
  intro T1 T2 h
  constructor
  · unfold sigmaOf
    have : ∀ c, T1.count c = T2.count c := fun c => h.count_eq c
    simp only [this]
  · unfold h0Of
    have hc : ∀ c, T1.count c = T2.count c := fun c => h.count_eq c
    have hl : T1.length = T2.length := h.length_eq
    simp only [hc, hl]

/-- Witness for C7 at concrete inputs. -/
theorem sigma_h0_perm_invariant_witness :
    sigmaOf [97, 98] = sigmaOf [98, 97] ∧ h0Of [97, 98] = h0Of [98, 97] :=
  sigma_h0_perm_invariant [97, 98] [98, 97] (by decide)

/-! ## C10: termination of the LZ77 loop -/

theorem z77Stride_pos (T sa isa : List Nat) (an i : Nat) : 1 ≤ z77Stride T sa isa an i :=
  le_max_left 1 _

theorem z77Aux_total (T sa isa : List Nat) (an : Nat) :
    ∀ fuel i, an ≤ i + fuel →
      ∃ z, z77Aux T sa isa an fuel i = some z ∧ z ≤ an - i := by
  intro fuel
  induction fuel with
  | zero =>
    intro i h
    refine ⟨0, ?_, by omega⟩
    unfold z77Aux
    have : ¬ i < an := by omega
    simp [this]
  | succ fuel ih =>
    intro i h
    by_cases hi : i < an
    · have hs := z77Stride_pos T sa isa an i
      obtain ⟨z, hz, hle⟩ := ih (i + z77Stride T sa isa an i) (by omega)
      refine ⟨z + 1, ?_, by omega⟩
      unfold z77Aux
      simp [hi, hz]
    · refine ⟨0, ?_, by omega⟩
      unfold z77Aux
      simp [hi]

/-- C10: the LZ77 factorisation loop terminates on every input because each
iteration advances the position by at least one; fuel `n′` suffices and the
number of phrases is at most `n′`. -/
theorem z77_terminates_bounded :
    ∀ T sa isa : List Nat,
      (z77Code T sa isa).isSome = true ∧ (z77Code T sa isa).getD 0 ≤ actualN T := by
  intro T sa isa
  obtain ⟨z, hz, hle⟩ := z77Aux_total T sa isa (actualN T) (actualN T) 0 (by omega)
  unfold z77Code
  rw [hz]
  exact ⟨rfl, by simpa using hle⟩

/-! ## C2: the BWT run counter -/

theorem rCode_fold (T sa : List Nat) :
    ∀ m a r0, ((List.range' a m).foldl
        (fun st i =>
          let c := bwtAt T sa i
          (c, if st.1 ≠ 0 ∧ c ≠ st.1 then st.2 + 1 else st.2))
        (bwtAt T sa (a - 1), r0)).2 =
      r0 + (List.range' a m).countP
        (fun i => decide (bwtAt T sa (i - 1) ≠ 0 ∧ bwtAt T sa i ≠ bwtAt T sa (i - 1))) := by
  intro m
  induction m with
  | zero => intro a r0; simp
  | succ m ih =>
    intro a r0
    have ha : a + 1 - 1 = a := by omega
    have ih1 := ih (a + 1)
    rw [ha] at ih1
    rw [List.range'_succ, List.foldl_cons, List.countP_cons]
    show (List.foldl _ (bwtAt T sa a,
        if bwtAt T sa (a - 1) ≠ 0 ∧ bwtAt T sa a ≠ bwtAt T sa (a - 1) then r0 + 1 else r0)
        (List.range' (a + 1) m)).2 = _
    by_cases hc : bwtAt T sa (a - 1) ≠ 0 ∧ bwtAt T sa a ≠ bwtAt T sa (a - 1)
    · have hd : decide (bwtAt T sa (a - 1) ≠ 0 ∧ bwtAt T sa a ≠ bwtAt T sa (a - 1)) = true := by
        simpa using hc
      rw [if_pos hc, ih1 (r0 + 1)]
      simp [hd]
      omega
    · have hd : decide (bwtAt T sa (a - 1) ≠ 0 ∧ bwtAt T sa a ≠ bwtAt T sa (a - 1)) = false := by
        simpa using hc
      rw [if_neg hc, ih1 r0]
      simp [hd]

/-- C2 (amended): the computed `r` equals the number of positions
`i ∈ [1, n)` at which `BWT(i) ≠ BWT(i-1)` **and** `BWT(i-1)` is not the
sentinel — the `last != 0` guard of the source skips the boundary that
follows the sentinel symbol. -/
theorem bwt_runs_counts_nonsentinel_boundaries :
    ∀ T sa : List Nat, rCode T sa = bwtRunsAmended T sa := by
  intro T sa
  unfold rCode bwtRunsAmended
  have := rCode_fold T sa (T.length - 1) 1 0
  simpa using this

/-- C2 counterexample: for the valid text `ab$` with its suffix array, the
code prints `r = 1` while the plain boundary count of the claim is `2` (the
boundary after the sentinel symbol of the BWT is skipped). -/
theorem bwt_runs_plain_count_fails_on_ab :
    ValidText [97, 98, 0] ∧ IsSuffixArray [97, 98, 0] [2, 0, 1] ∧
      rCode [97, 98, 0] [2, 0, 1] = 1 ∧ bwtPlainCount [97, 98, 0] [2, 0, 1] = 2 := by
  decide

/-! ## C1: the LZ77 counter misses the greedy parse on `cbcb` -/

/-- C1: on the valid text `cbcb$` (with correct SA and ISA) the program
computes `z77 = 4`, while the greedy LZ77 parse of the claim has `3` phrases
(`c`, `b`, `cb`): the NSV scan of the source stops at `actual_n = n - 1` and
never inspects the last suffix-array rank, here the one holding position 0. -/
theorem z77_code_deviates_from_greedy_on_cbcb :
    ValidText [99, 98, 99, 98, 0] ∧
      IsSuffixArray [99, 98, 99, 98, 0] [4, 3, 1, 2, 0] ∧
      IsISA [99, 98, 99, 98, 0] [4, 3, 1, 2, 0] [4, 2, 3, 1, 0] ∧
      z77Code [99, 98, 99, 98, 0] [4, 3, 1, 2, 0] [4, 2, 3, 1, 0] = some 4 ∧
      z77Greedy [99, 98, 99, 98] = 3 := by
  decide

/-! ## C4: the LZ77 counter on unary texts `aⁿ` -/

/-- The loaded text for a file of `n` copies of `a`. -/
def unaryText (n : Nat) : List Nat := List.replicate n 97 ++ [0]

/-- The suffix array of `aⁿ$`: suffixes get shorter as the start position
grows, and shorter unary suffixes are lexicographically smaller, so the
array lists positions in decreasing order. -/
def revSA (n : Nat) : List Nat := (List.range (n + 1)).reverse

theorem unaryText_length (n : Nat) : (unaryText n).length = n + 1 := by
  simp [unaryText]

theorem unaryText_getD (n k : Nat) (h : k < n) : (unaryText n).getD k 0 = 97 := by
  unfold unaryText
  rw [List.getD_eq_getElem _ _ (by simp; omega)]
  rw [List.getElem_append_left (by simpa using h)]
  simp

theorem revSA_length (n : Nat) : (revSA n).length = n + 1 := by
  simp [revSA]

theorem revSA_getD (n k : Nat) (h : k ≤ n) : (revSA n).getD k 0 = n - k := by
  unfold revSA
  rw [List.getD_eq_getElem _ _ (by simp; omega)]
  rw [List.getElem_reverse]
  simp

theorem unaryText_drop (n k : Nat) (h : k ≤ n) :
    (unaryText n).drop k = List.replicate (n - k) 97 ++ [0] := by
  unfold unaryText
  rw [List.drop_append_of_le_length (by simpa using h), List.drop_replicate]

theorem lexLt_unary (i j : Nat) (h : i < j) :
    lexLt (List.replicate i 97 ++ [0]) (List.replicate j 97 ++ [0]) = true := by
  induction i generalizing j with
  | zero =>
    obtain ⟨j', rfl⟩ : ∃ j', j = j' + 1 := ⟨j - 1, by omega⟩
    simp [lexLt]
  | succ i ih =>
    obtain ⟨j', rfl⟩ : ∃ j', j = j' + 1 := ⟨j - 1, by omega⟩
    simpa [lexLt] using ih j' (by omega)

theorem psvScan_unary (n i : Nat) (hi : i < n) :
    ∀ p, p ≤ n - i → psvScan (revSA n) i p = none := by
  intro p
  induction p with
  | zero => intro _; rfl
  | succ p ih =>
    intro hp
    unfold psvScan
    have hlt : i < (revSA n).getD p 0 := by
      rw [revSA_getD n p (by omega)]
      omega
    rw [if_pos hlt]
    exact ih (by omega)

theorem lce_unary (n : Nat) :
    ∀ fuel i j, j < i → lceAux (unaryText n) n fuel i j = min fuel (n - i) := by
  intro fuel
  induction fuel with
  | zero => intro i j _; simp [lceAux]
  | succ fuel ih =>
    intro i j hj
    unfold lceAux
    by_cases hi : i < n
    · have hcond : i < n ∧ j < n ∧ (unaryText n).getD i 0 = (unaryText n).getD j 0 := by
        refine ⟨hi, by omega, ?_⟩
        rw [unaryText_getD n i hi, unaryText_getD n j (by omega)]
      rw [if_pos hcond, ih (i + 1) (j + 1) (by omega)]
      omega
    · have hcond : ¬ (i < n ∧ j < n ∧ (unaryText n).getD i 0 = (unaryText n).getD j 0) := by
        intro h; exact hi h.1
      rw [if_neg hcond]
      omega

theorem z77Aux_done (T sa isa : List Nat) (an : Nat) (fuel i : Nat) (h : ¬ i < an) :
    z77Aux T sa isa an fuel i = some 0 := by
  cases fuel <;> simp [z77Aux, h]

theorem unary_isSuffixArray (n : Nat) : IsSuffixArray (unaryText n) (revSA n) := by
  refine ⟨by rw [revSA_length, unaryText_length], ?_, ?_⟩
  · intro i hi
    rw [unaryText_length] at hi
    rw [unaryText_length, revSA_getD n i (by omega)]
    omega
  · intro j hj i hij
    rw [unaryText_length] at hj
    rw [revSA_getD n i (by omega), revSA_getD n j (by omega),
      unaryText_drop n (n - i) (by omega), unaryText_drop n (n - j) (by omega)]
    have h1 : n - (n - i) = i := by omega
    have h2 : n - (n - j) = j := by omega
    rw [h1, h2]
    exact lexLt_unary i j hij

theorem unary_isISA (n : Nat) : IsISA (unaryText n) (revSA n) (revSA n) := by
  refine ⟨by rw [revSA_length, unaryText_length], ?_⟩
  intro i hi
  rw [unaryText_length] at hi
  rw [unaryText_length, revSA_getD n i (by omega)]
  refine ⟨by omega, ?_⟩
  rw [revSA_getD n (n - i) (by omega)]
  omega

theorem unary_stride_one (n i : Nat) (h1 : i < n) (h2 : i ≤ 1) :
    z77Stride (unaryText n) (revSA n) (revSA n) n i = 1 := by
  unfold z77Stride
  rw [revSA_getD n i (by omega)]
  rw [psvScan_unary n i h1 (n - i) (le_refl _)]
  have hn : nsvScan (revSA n) i n n (n - i + 1) = none := by
    obtain ⟨f, rfl⟩ : ∃ f, n = f + 1 := ⟨n - 1, by omega⟩
    unfold nsvScan
    rw [if_neg (by omega)]
  rw [hn]
  rfl

theorem unary_stride_two (n : Nat) (h : 3 ≤ n) :
    z77Stride (unaryText n) (revSA n) (revSA n) n 2 = n - 2 := by
  unfold z77Stride
  rw [revSA_getD n 2 (by omega)]
  rw [psvScan_unary n 2 (by omega) (n - 2) (le_refl _)]
  have hn : nsvScan (revSA n) 2 n n (n - 2 + 1) = some (n - 2 + 1) := by
    obtain ⟨f, rfl⟩ : ∃ f, n = f + 1 := ⟨n - 1, by omega⟩
    unfold nsvScan
    rw [if_pos (by omega)]
    rw [show f + 1 - 2 + 1 = f by omega]
    rw [revSA_getD (f + 1) f (by omega), if_neg (by omega)]
  rw [hn]
  dsimp only
  rw [revSA_getD n (n - 2 + 1) (by omega)]
  rw [show n - (n - 2 + 1) = 1 by omega]
  unfold lce77
  rw [lce_unary n n 2 1 (by omega)]
  have hm : min n (n - 2) = n - 2 := by omega
  rw [hm]
  rw [max_eq_right (by omega : (0 : Nat) ≤ n - 2),
    max_eq_right (by omega : (1 : Nat) ≤ n - 2)]

/-- C4 counterexample: for the unary file `aa` with its correct suffix
array, the program computes `z77 = 2`, not `1` as the claim states. -/
theorem z77_unary_not_one_on_aa :
    ValidText [97, 97, 0] ∧ IsSuffixArray [97, 97, 0] [2, 1, 0] ∧
      IsISA [97, 97, 0] [2, 1, 0] [2, 1, 0] ∧
      z77Code [97, 97, 0] [2, 1, 0] [2, 1, 0] = some 2 ∧
      z77Code [97, 97, 0] [2, 1, 0] [2, 1, 0] ≠ some 1 := by
  decide

/-- C4 (amended): on the unary input `aⁿ` (n ≥ 1) the program computes
`z77 = min(n, 3)`: phrase `a` at positions 0 and 1 (the NSV scan is cut at
`actual_n` there), then one phrase covering the rest.  In particular the
computed `z77` is `1` only for `n = 1`. -/
theorem z77Aux_step (T sa isa : List Nat) (an fuel i : Nat) (h : i < an) :
    z77Aux T sa isa an (fuel + 1) i =
      (z77Aux T sa isa an fuel (i + z77Stride T sa isa an i)).map (· + 1) := by
  conv_lhs => rw [z77Aux]
  rw [if_pos h]

theorem unary_z77_from2 (f fuel : Nat) :
    z77Aux (unaryText (f + 3)) (revSA (f + 3)) (revSA (f + 3)) (f + 3) (fuel + 1) 2 = some 1 := by
  rw [z77Aux_step _ _ _ _ fuel 2 (by omega), unary_stride_two (f + 3) (by omega)]
  rw [show 2 + (f + 3 - 2) = f + 3 by omega]
  rw [z77Aux_done _ _ _ _ fuel (f + 3) (by omega)]
  rfl

theorem unary_z77_from1 (f fuel : Nat) :
    z77Aux (unaryText (f + 3)) (revSA (f + 3)) (revSA (f + 3)) (f + 3) (fuel + 2) 1 = some 2 := by
  rw [show fuel + 2 = (fuel + 1) + 1 by omega]
  rw [z77Aux_step _ _ _ _ (fuel + 1) 1 (by omega),
    unary_stride_one (f + 3) 1 (by omega) (by omega)]
  rw [show (1 : Nat) + 1 = 2 by omega]
  rw [unary_z77_from2 f fuel]
  rfl

theorem unary_z77_from0 (f fuel : Nat) :
    z77Aux (unaryText (f + 3)) (revSA (f + 3)) (revSA (f + 3)) (f + 3) (fuel + 3) 0 = some 3 := by
  rw [show fuel + 3 = (fuel + 2) + 1 by omega]
  rw [z77Aux_step _ _ _ _ (fuel + 2) 0 (by omega),
    unary_stride_one (f + 3) 0 (by omega) (by omega)]
  rw [show (0 : Nat) + 1 = 1 by omega]
  rw [unary_z77_from1 f fuel]
  rfl

/-- C4 (amended): on the unary input `aⁿ` (n ≥ 1) the program computes
`z77 = min(n, 3)`: one phrase each at positions 0 and 1 (where the NSV scan
is cut off at `actual_n`), then one phrase covering the rest.  In particular
the computed `z77` is `1` only for `n = 1`. -/
theorem z77_unary_eq_min_n_three :
    ∀ n, 1 ≤ n →
      IsSuffixArray (unaryText n) (revSA n) ∧
      IsISA (unaryText n) (revSA n) (revSA n) ∧
      z77Code (unaryText n) (revSA n) (revSA n) = some (min n 3) := by
  intro n hn
  refine ⟨unary_isSuffixArray n, unary_isISA n, ?_⟩
  have han : actualN (unaryText n) = n := by
    rw [actualN, unaryText_length]
    omega
  unfold z77Code
  rw [han]
  rcases Nat.lt_or_ge n 3 with h3 | h3
  · interval_cases n
    · decide
    · decide
  · obtain ⟨f, rfl⟩ : ∃ f, n = f + 3 := ⟨n - 3, by omega⟩
    rw [unary_z77_from0 f f]
    congr 1
    omega

/-- Witness for C4 at `n = 5`. -/
theorem z77_unary_eq_min_n_three_witness :
    IsSuffixArray (unaryText 5) (revSA 5) ∧
      IsISA (unaryText 5) (revSA 5) (revSA 5) ∧
      z77Code (unaryText 5) (revSA 5) (revSA 5) = some (min 5 3) :=
  z77_unary_eq_min_n_three 5 (by decide)

/-! ## C3: the MTF trie implements the standard LZ78 parse

The refinement proof works in two layers: the linked sibling lists of the
store are described by a chain predicate, and a well-formedness invariant
ties every node to the word spelled on its root path; the dictionary of the
specification parse is then the set of words of non-root nodes. -/

theorem Trie.length_setNS (t : Trie) (v : Nat) (s : Option Nat) :
    (t.setNS v s).nodes.length = t.nodes.length := by
  simp [Trie.setNS]

theorem Trie.length_setFC (t : Trie) (v : Nat) (s : Option Nat) :
    (t.setFC v s).nodes.length = t.nodes.length := by
  simp [Trie.setFC]

theorem Trie.getN_eq (t : Trie) (v : Nat) : t.getN v = (t.nodes[v]?).getD ⟨0, none, none⟩ := by
  simp [Trie.getN, List.getD_eq_getElem?_getD]

theorem Trie.getN_setNS_self (t : Trie) (v : Nat) (s : Option Nat) (h : v < t.nodes.length) :
    (t.setNS v s).getN v = { t.getN v with next_sibling := s } := by
  rw [Trie.getN_eq, Trie.getN_eq]
  unfold Trie.setNS
  simp only [List.getElem?_set_self h]
  rw [List.getElem?_eq_getElem h]
  simp [Trie.getN_eq, List.getElem?_eq_getElem h]

theorem Trie.getN_setNS_ne (t : Trie) (v w : Nat) (s : Option Nat) (h : v ≠ w) :
    (t.setNS v s).getN w = t.getN w := by
  rw [Trie.getN_eq, Trie.getN_eq]
  unfold Trie.setNS
  simp only [List.getElem?_set_ne h]

theorem Trie.getN_setFC_self (t : Trie) (v : Nat) (s : Option Nat) (h : v < t.nodes.length) :
    (t.setFC v s).getN v = { t.getN v with first_child := s } := by
  rw [Trie.getN_eq, Trie.getN_eq]
  unfold Trie.setFC
  simp only [List.getElem?_set_self h]
  rw [List.getElem?_eq_getElem h]
  simp [Trie.getN_eq, List.getElem?_eq_getElem h]

theorem Trie.getN_setFC_ne (t : Trie) (v w : Nat) (s : Option Nat) (h : v ≠ w) :
    (t.setFC v s).getN w = t.getN w := by
  rw [Trie.getN_eq, Trie.getN_eq]
  unfold Trie.setFC
  simp only [List.getElem?_set_ne h]

/-- Chain predicate for sibling lists: from the pointer `s`, following the
`next_sibling` fields visits exactly the nodes of `l` and leaves with
pointer `e`. -/
inductive ChainF (t : Trie) : Option Nat → List Nat → Option Nat → Prop
  | nil (s : Option Nat) : ChainF t s [] s
  | cons {v : Nat} {l : List Nat} {e : Option Nat} (hv : v < t.nodes.length)
      (h : ChainF t (t.getN v).next_sibling l e) : ChainF t (some v) (v :: l) e

theorem ChainF.append {t : Trie} {s m e : Option Nat} {l1 l2 : List Nat}
    (h1 : ChainF t s l1 m) (h2 : ChainF t m l2 e) : ChainF t s (l1 ++ l2) e := by
  induction h1 with
  | nil => simpa using h2
  | cons hv _ ih => exact ChainF.cons hv (ih h2)

theorem ChainF.split {t : Trie} {s e : Option Nat} {l1 l2 : List Nat}
    (h : ChainF t s (l1 ++ l2) e) : ∃ m, ChainF t s l1 m ∧ ChainF t m l2 e := by
  induction l1 generalizing s with
  | nil => exact ⟨s, ChainF.nil s, h⟩
  | cons a l1 ih =>
    cases h with
    | cons hv h =>
      obtain ⟨m, hm1, hm2⟩ := ih h
      exact ⟨m, ChainF.cons hv hm1, hm2⟩

/-- Chains are insensitive to store changes that keep the `next_sibling`
field of every chain member and do not shrink the store. -/
theorem ChainF.congr {t t' : Trie} {s e : Option Nat} {l : List Nat}
    (h : ChainF t s l e) (hlen : t.nodes.length ≤ t'.nodes.length)
    (hns : ∀ v ∈ l, (t'.getN v).next_sibling = (t.getN v).next_sibling) :
    ChainF t' s l e := by
  induction h with
  | nil => exact ChainF.nil _
  | cons hv h ih =>
    refine ChainF.cons (by omega) ?_
    rw [hns _ (by simp)]
    exact ih (fun v hv => hns v (by simp [hv]))

/-- A chain with distinct in-range members is no longer than the store. -/
theorem chain_length_le (n : Nat) (l : List Nat) (hnd : l.Nodup)
    (hlt : ∀ x ∈ l, x < n) : l.length ≤ n := by
  have h1 : l.length = l.toFinset.card := (List.toFinset_card_of_nodup hnd).symm
  have h2 : l.toFinset ⊆ Finset.range n := by
    intro x hx
    rw [List.mem_toFinset] at hx
    simpa using hlt x hx
  calc l.length = l.toFinset.card := h1
    _ ≤ (Finset.range n).card := Finset.card_le_card h2
    _ = n := Finset.card_range n

/-- The `prev` pointer maintained by the child scan: the last element of the
visited part, or the initial value when nothing was visited. -/
def lastOr (d : Option Nat) : List Nat → Option Nat
  | [] => d
  | x :: l => lastOr (some x) l

theorem lastOr_concat (d : Option Nat) (l : List Nat) (z : Nat) :
    lastOr d (l ++ [z]) = some z := by
  induction l generalizing d with
  | nil => rfl
  | cons a l ih => exact ih (some a)

theorem tryAux_found (t : Trie) (c : Nat) :
    ∀ (pre : List Nat) (x : Nat) (post : List Nat) (prev0 s : Option Nat) (fuel : Nat),
      ChainF t s (pre ++ x :: post) none →
      (∀ y ∈ pre, (t.getN y).label ≠ c) → (t.getN x).label = c →
      (pre ++ x :: post).length ≤ fuel →
      Trie.tryAux t c fuel prev0 s = some (x, lastOr prev0 pre) := by
  intro pre
  induction pre with
  | nil =>
    intro x post prev0 s fuel hch hpre hx hfuel
    cases hch with
    | cons hv h =>
      obtain ⟨f, rfl⟩ : ∃ f, fuel = f + 1 := ⟨fuel - 1, by simp at hfuel; omega⟩
      unfold Trie.tryAux
      rw [if_pos hx]
      rfl
  | cons y pre ih =>
    intro x post prev0 s fuel hch hpre hx hfuel
    cases hch with
    | cons hv h =>
      obtain ⟨f, rfl⟩ : ∃ f, fuel = f + 1 := ⟨fuel - 1, by simp at hfuel; omega⟩
      unfold Trie.tryAux
      rw [if_neg (hpre y (by simp))]
      exact ih x post (some y) _ f h (fun z hz => hpre z (by simp [hz])) hx
        (by simp at hfuel ⊢; omega)

theorem tryAux_none (t : Trie) (c : Nat) :
    ∀ (l : List Nat) (prev0 s : Option Nat) (fuel : Nat),
      ChainF t s l none → (∀ y ∈ l, (t.getN y).label ≠ c) → l.length ≤ fuel →
      Trie.tryAux t c fuel prev0 s = none := by
  intro l
  induction l with
  | nil =>
    intro prev0 s fuel hch _ _
    cases hch
    cases fuel <;> rfl
  | cons y l ih =>
    intro prev0 s fuel hch hl hfuel
    cases hch with
    | cons hv h =>
      obtain ⟨f, rfl⟩ : ∃ f, fuel = f + 1 := ⟨fuel - 1, by simp at hfuel; omega⟩
      unfold Trie.tryAux
      rw [if_neg (hl y (by simp))]
      exact ih (some y) _ f h (fun z hz => hl z (by simp [hz])) (by simp at hfuel ⊢; omega)

theorem Trie.label_setNS (t : Trie) (v w : Nat) (s : Option Nat) :
    ((t.setNS v s).getN w).label = (t.getN w).label := by
  by_cases h : v = w
  · subst h
    by_cases hv : v < t.nodes.length
    · rw [Trie.getN_setNS_self _ _ _ hv]
    · unfold Trie.setNS
      rw [List.set_eq_of_length_le (by omega)]
  · rw [Trie.getN_setNS_ne _ _ _ _ h]

theorem Trie.fc_setNS (t : Trie) (v w : Nat) (s : Option Nat) :
    ((t.setNS v s).getN w).first_child = (t.getN w).first_child := by
  by_cases h : v = w
  · subst h
    by_cases hv : v < t.nodes.length
    · rw [Trie.getN_setNS_self _ _ _ hv]
    · unfold Trie.setNS
      rw [List.set_eq_of_length_le (by omega)]
  · rw [Trie.getN_setNS_ne _ _ _ _ h]

theorem Trie.label_setFC (t : Trie) (v w : Nat) (s : Option Nat) :
    ((t.setFC v s).getN w).label = (t.getN w).label := by
  by_cases h : v = w
  · subst h
    by_cases hv : v < t.nodes.length
    · rw [Trie.getN_setFC_self _ _ _ hv]
    · unfold Trie.setFC
      rw [List.set_eq_of_length_le (by omega)]
  · rw [Trie.getN_setFC_ne _ _ _ _ h]

theorem Trie.ns_setFC (t : Trie) (v w : Nat) (s : Option Nat) :
    ((t.setFC v s).getN w).next_sibling = (t.getN w).next_sibling := by
  by_cases h : v = w
  · subst h
    by_cases hv : v < t.nodes.length
    · rw [Trie.getN_setFC_self _ _ _ hv]
    · unfold Trie.setFC
      rw [List.set_eq_of_length_le (by omega)]
  · rw [Trie.getN_setFC_ne _ _ _ _ h]

theorem Trie.ns_setNS_ne (t : Trie) (v w : Nat) (s : Option Nat) (h : v ≠ w) :
    ((t.setNS v s).getN w).next_sibling = (t.getN w).next_sibling := by
  rw [Trie.getN_setNS_ne _ _ _ _ h]

/-- Well-formedness of the trie store together with its abstraction: `ch u`
is the child list of node `u` as laid out by the sibling chains, and `ρ v`
is the word spelled on the root path to `v`.  The `edge` field states that
the labelled edges of the store realise exactly the parent/extension
relation on words; `parent` states every non-root node hangs below some
parent. -/
structure TrieInv (t : Trie) (ρ : Nat → List Nat) (ch : Nat → List Nat) : Prop where
  root_lt : 0 < t.nodes.length
  rho_root : ρ 0 = []
  chains : ∀ u, u < t.nodes.length → ChainF t (t.getN u).first_child (ch u) none
  chains_hi : ∀ u, ¬ u < t.nodes.length → ch u = []
  mem_lt : ∀ u, ∀ x ∈ ch u, x < t.nodes.length
  mem_ne : ∀ u, ∀ x ∈ ch u, x ≠ 0
  disj : ∀ u u' x, x ∈ ch u → x ∈ ch u' → u = u'
  nodup : ∀ u, (ch u).Nodup
  labels : ∀ u, ((ch u).map (fun x => (t.getN x).label)).Nodup
  edge : ∀ u c x, u < t.nodes.length →
    ((x ∈ ch u ∧ (t.getN x).label = c) ↔
      (x < t.nodes.length ∧ x ≠ 0 ∧ ρ x = ρ u ++ [c]))
  parent : ∀ x, x < t.nodes.length → x ≠ 0 →
    ∃ u, u < t.nodes.length ∧ x ∈ ch u ∧ ρ x = ρ u ++ [(t.getN x).label]

theorem TrieInv.not_self_mem {t : Trie} {ρ ch} (hI : TrieInv t ρ ch) (u : Nat) :
    u ∉ ch u := by
  intro hu
  have hlt : u < t.nodes.length := hI.mem_lt u u hu
  have := (hI.edge u ((t.getN u).label) u hlt).mp ⟨hu, rfl⟩
  have heq := this.2.2
  simp at heq

theorem TrieInv.rho_ne_nil {t : Trie} {ρ ch} (hI : TrieInv t ρ ch) (x : Nat)
    (hx : x < t.nodes.length) (hne : x ≠ 0) : ρ x ≠ [] := by
  obtain ⟨u, _, _, hρ⟩ := hI.parent x hx hne
  simp [hρ]

theorem TrieInv.rho_inj {t : Trie} {ρ ch} (hI : TrieInv t ρ ch) (a b : Nat)
    (ha : a < t.nodes.length) (hb : b < t.nodes.length) (hab : ρ a = ρ b) : a = b := by
  by_cases ha0 : a = 0
  · subst ha0
    by_contra hb0
    exact absurd (hab.symm.trans hI.rho_root) (hI.rho_ne_nil b hb (fun h => hb0 h.symm))
  · by_cases hb0 : b = 0
    · subst hb0
      exact absurd (hab.trans hI.rho_root) (hI.rho_ne_nil a ha ha0)
    · obtain ⟨u, hu, hmem, hρa⟩ := hI.parent a ha ha0
      have hρb : ρ b = ρ u ++ [(t.getN a).label] := by rw [← hab, hρa]
      have hbmem := (hI.edge u ((t.getN a).label) b hu).mpr ⟨hb, hb0, hρb⟩
      exact (List.inj_on_of_nodup_map (hI.labels u) hbmem.1 hmem hbmem.2).symm

theorem ChainF.nil_eq {t : Trie} {s e : Option Nat} (h : ChainF t s [] e) : s = e := by
  cases h
  rfl

/-- The invariant transfers to any store of the same size with the same
labels whose chains lay out permutations of the same child lists. -/
theorem TrieInv.transfer {t t' : Trie} {ρ ch ch' : Nat → List Nat} (hI : TrieInv t ρ ch)
    (hlen : t'.nodes.length = t.nodes.length)
    (hlab : ∀ w, (t'.getN w).label = (t.getN w).label)
    (hchains : ∀ u, u < t'.nodes.length → ChainF t' ((t'.getN u).first_child) (ch' u) none)
    (hperm : ∀ u, (ch' u).Perm (ch u))
    (hhi : ∀ u, ¬ u < t'.nodes.length → ch' u = []) :
    TrieInv t' ρ ch' := by
  refine ⟨?_, hI.rho_root, hchains, hhi, ?_, ?_, ?_, ?_, ?_, ?_, ?_⟩
  · rw [hlen]
    exact hI.root_lt
  · intro u y hy
    rw [hlen]
    exact hI.mem_lt u y ((hperm u).mem_iff.mp hy)
  · intro u y hy
    exact hI.mem_ne u y ((hperm u).mem_iff.mp hy)
  · intro u u' y hy hy'
    exact hI.disj u u' y ((hperm u).mem_iff.mp hy) ((hperm u').mem_iff.mp hy')
  · intro u
    exact ((hperm u).nodup_iff).mpr (hI.nodup u)
  · intro u
    have hmapeq : (ch' u).map (fun y => (t'.getN y).label) =
        (ch' u).map (fun y => (t.getN y).label) :=
      List.map_congr_left (fun y _ => hlab y)
    rw [hmapeq]
    exact (((hperm u).map _).nodup_iff).mpr (hI.labels u)
  · intro u c y hu
    rw [hlen] at hu ⊢
    rw [hlab y, (hperm u).mem_iff]
    exact hI.edge u c y hu
  · intro y hy hy0
    rw [hlen] at hy
    obtain ⟨u, hu, hmem, hρ⟩ := hI.parent y hy hy0
    exact ⟨u, by omega, (hperm u).mem_iff.mpr hmem, by rw [hlab y]; exact hρ⟩

/-- The move-to-front splice keeps the store abstraction: the child of `u`
that was found after its predecessor `p` moves to the head of the child list
of `u`, and nothing else changes (same store size, same labels, same words,
same child sets). -/
theorem mtf_preserves (t : Trie) (ρ ch : Nat → List Nat) (hI : TrieInv t ρ ch)
    (u x p : Nat) (hu : u < t.nodes.length) (pre0 post : List Nat)
    (hdecomp : ch u = pre0 ++ [p] ++ x :: post) :
    TrieInv (t.mtf u x p) ρ
        (fun w => if w = u then x :: (pre0 ++ [p] ++ post) else ch w) ∧
      (t.mtf u x p).nodes.length = t.nodes.length ∧
      ∀ w, ((t.mtf u x p).getN w).label = (t.getN w).label := by
  have hmemx : x ∈ ch u := by rw [hdecomp]; simp
  have hmemp : p ∈ ch u := by rw [hdecomp]; simp
  have hxlt := hI.mem_lt u x hmemx
  have hplt := hI.mem_lt u p hmemp
  have hxu : x ≠ u := fun h => hI.not_self_mem u (h ▸ hmemx)
  have hpu : p ≠ u := fun h => hI.not_self_mem u (h ▸ hmemp)
  have hnd : ((pre0 ++ [p]) ++ x :: post).Nodup := by
    have := hI.nodup u
    rwa [hdecomp] at this
  have hdisj1 : List.Disjoint (pre0 ++ [p]) (x :: post) :=
    List.disjoint_of_nodup_append hnd
  have hndl : (pre0 ++ [p]).Nodup := hnd.of_append_left
  have hndr : (x :: post).Nodup := hnd.of_append_right
  have hpx : p ≠ x := by
    intro h
    have hp1 : p ∈ pre0 ++ [p] := by simp
    have hp2 : p ∈ x :: post := by simp [h]
    exact hdisj1 hp1 hp2
  have hpre0p : ∀ y ∈ pre0, y ≠ p := by
    intro y hy h
    have hd0 : List.Disjoint pre0 [p] := List.disjoint_of_nodup_append hndl
    have hp2 : y ∈ [p] := by simp [h]
    exact hd0 hy hp2
  have hpre0x : ∀ y ∈ pre0, y ≠ x := by
    intro y hy h
    have hy1 : y ∈ pre0 ++ [p] := by simp [hy]
    have hy2 : y ∈ x :: post := by simp [h]
    exact hdisj1 hy1 hy2
  have hpostx : ∀ y ∈ post, y ≠ x := by
    intro y hy h
    have hxnp : x ∉ post := (List.nodup_cons.mp hndr).1
    exact hxnp (h ▸ hy)
  have hpostp : ∀ y ∈ post, y ≠ p := by
    intro y hy h
    have hp1 : p ∈ pre0 ++ [p] := by simp
    have hp2 : p ∈ x :: post := by
      right
      exact h ▸ hy
    exact hdisj1 hp1 hp2
  -- store effects
  have hlen' : (t.mtf u x p).nodes.length = t.nodes.length := by
    unfold Trie.mtf
    rw [Trie.length_setFC, Trie.length_setNS, Trie.length_setNS]
  have hlab : ∀ w, ((t.mtf u x p).getN w).label = (t.getN w).label := by
    intro w
    unfold Trie.mtf
    rw [Trie.label_setFC, Trie.label_setNS, Trie.label_setNS]
  have hfc_u : ((t.mtf u x p).getN u).first_child = some x := by
    unfold Trie.mtf
    rw [Trie.getN_setFC_self _ _ _ (by rw [Trie.length_setNS, Trie.length_setNS]; exact hu)]
  have hfc_ne : ∀ w, w ≠ u → ((t.mtf u x p).getN w).first_child = (t.getN w).first_child := by
    intro w hw
    unfold Trie.mtf
    rw [Trie.getN_setFC_ne _ _ _ _ (fun h => hw h.symm), Trie.fc_setNS, Trie.fc_setNS]
  have hns_x : ((t.mtf u x p).getN x).next_sibling = (t.getN u).first_child := by
    unfold Trie.mtf
    rw [Trie.ns_setFC]
    rw [Trie.getN_setNS_self _ _ _ (by rw [Trie.length_setNS]; exact hxlt)]
    rw [Trie.fc_setNS]
  have hns_p : ((t.mtf u x p).getN p).next_sibling = (t.getN x).next_sibling := by
    unfold Trie.mtf
    rw [Trie.ns_setFC, Trie.ns_setNS_ne _ _ _ _ (fun h => hpx h.symm)]
    rw [Trie.getN_setNS_self _ _ _ hplt]
  have hns_other : ∀ w, w ≠ p → w ≠ x →
      ((t.mtf u x p).getN w).next_sibling = (t.getN w).next_sibling := by
    intro w hwp hwx
    unfold Trie.mtf
    rw [Trie.ns_setFC, Trie.ns_setNS_ne _ _ _ _ (fun h => hwx h.symm),
      Trie.ns_setNS_ne _ _ _ _ (fun h => hwp h.symm)]
  -- decompose the old chain of u
  have hch : ChainF t ((t.getN u).first_child) ((pre0 ++ [p]) ++ x :: post) none := by
    have := hI.chains u hu
    rwa [hdecomp] at this
  obtain ⟨m1, hc1, hc2⟩ := ChainF.split hch
  have hm1 : m1 = some x := by cases hc2; rfl
  subst hm1
  have hc3 : ChainF t ((t.getN x).next_sibling) post none := by
    cases hc2 with
    | cons _ h => exact h
  obtain ⟨m0, hc0, hcp⟩ := ChainF.split hc1
  have hm0 : m0 = some p := by cases hcp; rfl
  subst hm0
  have hnsp_eq : (t.getN p).next_sibling = some x := by
    cases hcp with
    | cons _ h => exact ChainF.nil_eq h
  -- the new chain of u
  have hc0' : ChainF (t.mtf u x p) ((t.getN u).first_child) pre0 (some p) :=
    hc0.congr (by omega) (fun y hy => hns_other y (hpre0p y hy) (hpre0x y hy))
  have hcp' : ChainF (t.mtf u x p) (some p) [p] ((t.getN x).next_sibling) := by
    refine ChainF.cons (by rw [hlen']; exact hplt) ?_
    rw [hns_p]
    exact ChainF.nil _
  have hc3' : ChainF (t.mtf u x p) ((t.getN x).next_sibling) post none :=
    hc3.congr (by omega) (fun y hy => hns_other y (hpostp y hy) (hpostx y hy))
  have hchain_u : ChainF (t.mtf u x p) ((t.mtf u x p).getN u).first_child
      (x :: (pre0 ++ [p] ++ post)) none := by
    rw [hfc_u]
    refine ChainF.cons (by rw [hlen']; exact hxlt) ?_
    rw [hns_x]
    exact (hc0'.append hcp').append hc3'
  -- membership permutation
  have hperm : (x :: (pre0 ++ [p] ++ post)).Perm (ch u) := by
    rw [hdecomp]
    exact List.perm_middle.symm
  have hchains' : ∀ w, w ≠ u → w < t.nodes.length →
      ChainF (t.mtf u x p) ((t.mtf u x p).getN w).first_child (ch w) none := by
    intro w hw hwlt
    rw [hfc_ne w hw]
    refine (hI.chains w hwlt).congr (by omega) ?_
    intro y hy
    have hyp : y ≠ p := fun h => hw (hI.disj w u p (h ▸ hy) hmemp)
    have hyx : y ≠ x := fun h => hw (hI.disj w u x (h ▸ hy) hmemx)
    exact hns_other y hyp hyx
  refine ⟨hI.transfer hlen' hlab ?_ ?_ ?_, hlen', hlab⟩
  · -- chains
    intro w hw
    rw [hlen'] at hw
    by_cases hwu : w = u
    · rw [if_pos hwu, hwu]
      exact hchain_u
    · rw [if_neg hwu]
      exact hchains' w hwu hw
  · -- permutations of the child lists
    intro w
    by_cases hwu : w = u
    · rw [if_pos hwu, hwu]
      exact hperm
    · rw [if_neg hwu]
  · -- empty beyond the store
    intro w hw
    rw [hlen'] at hw
    have hwu : w ≠ u := fun h => hw (h ▸ hu)
    rw [if_neg hwu]
    exact hI.chains_hi w hw

theorem snoc_inj {a b : List Nat} {x y : Nat} (h : a ++ [x] = b ++ [y]) : a = b ∧ x = y := by
  have := List.append_inj' h (by simp)
  exact ⟨this.1, by simpa using this.2⟩

/-- Inserting a fresh child labelled `c` below `u` (when `u` has no child
labelled `c`) extends the abstraction: the fresh node `x = |nodes|` carries
the word `ρ u ++ [c]`, is prepended to the child list of `u`, and everything
else is unchanged. -/
theorem insert_preserves (t : Trie) (ρ ch : Nat → List Nat) (hI : TrieInv t ρ ch)
    (u c : Nat) (hu : u < t.nodes.length)
    (hnoc : ∀ y ∈ ch u, (t.getN y).label ≠ c) :
    TrieInv (t.insertChild u c).2
        (fun y => if y = t.nodes.length then ρ u ++ [c] else ρ y)
        (fun w => if w = u then t.nodes.length :: ch u else ch w) ∧
      (t.insertChild u c).2.nodes.length = t.nodes.length + 1 := by
  set x := t.nodes.length with hx
  have hxu : u ≠ x := by omega
  have hx0 : x ≠ 0 := by
    have := hI.root_lt
    omega
  have hxnot : ∀ w, x ∉ ch w := by
    intro w hw
    have := hI.mem_lt w x hw
    omega
  have hnoword : ∀ y, y < x → y ≠ 0 → ρ y ≠ ρ u ++ [c] := by
    intro y hy hy0 hρ
    have hmem := (hI.edge u c y hu).mpr ⟨hy, hy0, hρ⟩
    exact hnoc y hmem.1 hmem.2
  -- store effects
  have ht1 : ∀ y, ((⟨t.nodes ++ [⟨c, none, none⟩]⟩ : Trie)).getN y =
      if y = x then ⟨c, none, none⟩ else t.getN y := by
    intro y
    rw [Trie.getN_eq, Trie.getN_eq]
    by_cases hyx : y = x
    · subst hyx
      rw [if_pos rfl]
      rw [List.getElem?_append_right (by omega)]
      simp
    · rw [if_neg hyx]
      by_cases hylt : y < x
      · rw [List.getElem?_append_left hylt]
      · rw [List.getElem?_append_right (by omega)]
        have h1 : ([(⟨c, none, none⟩ : TrieNode)][y - t.nodes.length]?) = none := by
          rw [List.getElem?_eq_none]
          simp
          omega
        have h2 : (t.nodes[y]?) = none := by
          rw [List.getElem?_eq_none]
          omega
        rw [h1, h2]
  have hlen1 : ((⟨t.nodes ++ [⟨c, none, none⟩]⟩ : Trie)).nodes.length = x + 1 := by
    simp
  have hlen'' : (t.insertChild u c).2.nodes.length = x + 1 := by
    unfold Trie.insertChild
    rw [Trie.length_setFC, Trie.length_setNS]
    exact hlen1
  have hlab'' : ∀ y, ((t.insertChild u c).2.getN y).label =
      if y = x then c else (t.getN y).label := by
    intro y
    unfold Trie.insertChild
    rw [Trie.label_setFC, Trie.label_setNS, ht1]
    by_cases hyx : y = x <;> simp [hyx]
  have hns'' : ∀ y, ((t.insertChild u c).2.getN y).next_sibling =
      if y = x then (t.getN u).first_child else (t.getN y).next_sibling := by
    intro y
    unfold Trie.insertChild
    rw [Trie.ns_setFC]
    by_cases hyx : y = x
    · subst hyx
      rw [Trie.getN_setNS_self _ _ _ (by rw [hlen1]; omega)]
      simp only [ht1, if_neg hxu]
      simp
    · rw [Trie.ns_setNS_ne _ _ _ _ (fun h => hyx h.symm), ht1, if_neg hyx, if_neg hyx]
  have hfc_u'' : (((t.insertChild u c).2).getN u).first_child = some x := by
    unfold Trie.insertChild
    rw [Trie.getN_setFC_self _ _ _ (by rw [Trie.length_setNS, hlen1]; omega)]
  have hfc_ne'' : ∀ w, w ≠ u →
      (((t.insertChild u c).2).getN w).first_child =
        if w = x then none else (t.getN w).first_child := by
    intro w hw
    unfold Trie.insertChild
    rw [Trie.getN_setFC_ne _ _ _ _ (fun h => hw h.symm), Trie.fc_setNS, ht1]
    by_cases hwx : w = x <;> simp [hwx]
  -- chains
  have hchain_u : ChainF (t.insertChild u c).2 (((t.insertChild u c).2).getN u).first_child
      (x :: ch u) none := by
    rw [hfc_u'']
    refine ChainF.cons (by omega) ?_
    rw [hns'', if_pos rfl]
    refine (hI.chains u hu).congr (by omega) ?_
    intro y hy
    have hyx : y ≠ x := fun h => hxnot u (h ▸ hy)
    rw [hns'', if_neg hyx]
  have hchain_other : ∀ w, w ≠ u → w < x →
      ChainF (t.insertChild u c).2 (((t.insertChild u c).2).getN w).first_child (ch w) none := by
    intro w hw hwlt
    rw [hfc_ne'' w hw, if_neg (by omega)]
    refine (hI.chains w hwlt).congr (by omega) ?_
    intro y hy
    have hyx : y ≠ x := fun h => hxnot w (h ▸ hy)
    rw [hns'', if_neg hyx]
  refine ⟨⟨by omega, ?_, ?_, ?_, ?_, ?_, ?_, ?_, ?_, ?_, ?_⟩, hlen''⟩
  · -- rho_root
    rw [if_neg (fun h => hx0 h.symm)]
    exact hI.rho_root
  · -- chains
    intro w hw
    rw [hlen''] at hw
    by_cases hwu : w = u
    · rw [if_pos hwu, hwu]
      exact hchain_u
    · rw [if_neg hwu]
      by_cases hwx : w = x
      · have hxu2 : ¬ x = u := fun h => hwu (hwx.trans h)
        rw [hwx, hI.chains_hi x (by omega)]
        rw [hfc_ne'' x hxu2, if_pos rfl]
        exact ChainF.nil none
      · exact hchain_other w hwu (by omega)
  · -- chains_hi
    intro w hw
    rw [hlen''] at hw
    rw [if_neg (fun h => hw (by omega))]
    exact hI.chains_hi w (by omega)
  · -- mem_lt
    intro w y hy
    rw [hlen'']
    by_cases hwu : w = u
    · rw [if_pos hwu] at hy
      rcases List.mem_cons.mp hy with h | h
      · omega
      · have := hI.mem_lt u y h
        omega
    · rw [if_neg hwu] at hy
      have := hI.mem_lt w y hy
      omega
  · -- mem_ne
    intro w y hy
    by_cases hwu : w = u
    · rw [if_pos hwu] at hy
      rcases List.mem_cons.mp hy with h | h
      · omega
      · exact hI.mem_ne u y h
    · rw [if_neg hwu] at hy
      exact hI.mem_ne w y hy
  · -- disj
    intro w w' y hy hy'
    by_cases hwu : w = u <;> by_cases hw'u : w' = u
    · rw [hwu, hw'u]
    · rw [if_pos hwu] at hy
      rw [if_neg hw'u] at hy'
      rcases List.mem_cons.mp hy with h | h
      · exact absurd (h ▸ hy' : x ∈ ch w') (hxnot w')
      · exact absurd (hI.disj w' u y hy' h) hw'u
    · rw [if_neg hwu] at hy
      rw [if_pos hw'u] at hy'
      rcases List.mem_cons.mp hy' with h | h
      · exact absurd (h ▸ hy : x ∈ ch w) (hxnot w)
      · rw [hw'u]
        exact hI.disj w u y hy h
    · rw [if_neg hwu] at hy
      rw [if_neg hw'u] at hy'
      exact hI.disj w w' y hy hy'
  · -- nodup
    intro w
    by_cases hwu : w = u
    · rw [if_pos hwu]
      exact List.nodup_cons.mpr ⟨hxnot u, hI.nodup u⟩
    · rw [if_neg hwu]
      exact hI.nodup w
  · -- labels
    intro w
    by_cases hwu : w = u
    · rw [if_pos hwu]
      rw [List.map_cons]
      rw [hlab'' x, if_pos rfl]
      have hmapeq : (ch u).map (fun y => (((t.insertChild u c).2).getN y).label) =
          (ch u).map (fun y => (t.getN y).label) := by
        refine List.map_congr_left (fun y hy => ?_)
        have hyx : y ≠ x := fun h => hxnot u (h ▸ hy)
        rw [hlab'' y, if_neg hyx]
      rw [hmapeq]
      refine List.nodup_cons.mpr ⟨?_, hI.labels u⟩
      intro hcmem
      obtain ⟨y, hymem, hyl⟩ := List.mem_map.mp hcmem
      exact hnoc y hymem hyl
    · rw [if_neg hwu]
      have hmapeq : (ch w).map (fun y => (((t.insertChild u c).2).getN y).label) =
          (ch w).map (fun y => (t.getN y).label) := by
        refine List.map_congr_left (fun y hy => ?_)
        have hyx : y ≠ x := fun h => hxnot w (h ▸ hy)
        rw [hlab'' y, if_neg hyx]
      rw [hmapeq]
      exact hI.labels w
  · -- edge
    intro w c' y hw
    rw [hlen''] at hw
    rw [hlab'' y]
    constructor
    · rintro ⟨hymem, hylab⟩
      by_cases hyx : y = x
      · subst hyx
        rw [if_pos rfl] at hylab
        have hwu : w = u := by
          by_contra hwu
          rw [if_neg hwu] at hymem
          exact hxnot w hymem
        refine ⟨by omega, hx0, ?_⟩
        rw [hwu, if_pos rfl, if_neg hxu, hylab]
      · rw [if_neg hyx] at hylab
        have hymem' : y ∈ ch w := by
          by_cases hwu : w = u
          · rw [if_pos hwu] at hymem
            rcases List.mem_cons.mp hymem with h | h
            · exact absurd h hyx
            · rwa [hwu]
          · rwa [if_neg hwu] at hymem
        have hwlt : w < x := by
          rcases Nat.lt_or_ge w x with h | h
          · exact h
          · rw [hI.chains_hi w (by omega)] at hymem'
            simp at hymem'
        have hold := (hI.edge w c' y hwlt).mp ⟨hymem', hylab⟩
        refine ⟨by omega, hold.2.1, ?_⟩
        rw [if_neg hyx, if_neg (by omega : ¬ w = x)]
        exact hold.2.2
    · rintro ⟨hylt, hy0, hyρ⟩
      by_cases hyx : y = x
      · subst hyx
        rw [if_pos rfl] at hyρ
        have hwx : w ≠ x := by
          intro hwx
          rw [if_pos hwx] at hyρ
          have hl := congrArg List.length hyρ
          simp [List.length_append] at hl
        rw [if_neg hwx] at hyρ
        obtain ⟨hρw, hcc⟩ := snoc_inj hyρ
        have hwu : w = u := (hI.rho_inj u w hu (by omega) hρw).symm
        refine ⟨?_, ?_⟩
        · rw [hwu, if_pos rfl]
          exact List.mem_cons_self _ _
        · rw [if_pos rfl]
          exact hcc
      · rw [if_neg hyx] at hyρ
        have hylt' : y < x := by omega
        by_cases hwx : w = x
        · rw [if_pos hwx] at hyρ
          exfalso
          obtain ⟨w2, hw2lt, hw2mem, hw2ρ⟩ := hI.parent y hylt' hy0
          rw [hw2ρ] at hyρ
          obtain ⟨hρ2, _⟩ := snoc_inj hyρ
          by_cases hw20 : w2 = 0
          · rw [hw20, hI.rho_root] at hρ2
            have hl := congrArg List.length hρ2
            simp [List.length_append] at hl
          · exact hnoword w2 hw2lt hw20 hρ2
        · rw [if_neg hwx] at hyρ
          have hwlt : w < x := by omega
          have hold := (hI.edge w c' y hwlt).mpr ⟨hylt', hy0, hyρ⟩
          refine ⟨?_, by rw [if_neg hyx]; exact hold.2⟩
          by_cases hwu : w = u
          · rw [if_pos hwu]
            refine List.mem_cons_of_mem _ ?_
            rw [← hwu]
            exact hold.1
          · rw [if_neg hwu]
            exact hold.1
  · -- parent
    intro y hy hy0
    rw [hlen''] at hy
    by_cases hyx : y = x
    · subst hyx
      refine ⟨u, by omega, ?_, ?_⟩
      · rw [if_pos rfl]
        exact List.mem_cons_self _ _
      · rw [if_pos rfl, if_neg hxu, hlab'' x, if_pos rfl]
    · obtain ⟨w, hwlt, hwmem, hwρ⟩ := hI.parent y (by omega) hy0
      have hwx : w ≠ x := by omega
      refine ⟨w, by omega, ?_, ?_⟩
      · by_cases hwu : w = u
        · rw [if_pos hwu]
          exact List.mem_cons_of_mem _ (hwu ▸ hwmem)
        · rw [if_neg hwu]
          exact hwmem
      · rw [if_neg hyx, if_neg hwx, hlab'' y, if_neg hyx]
        exact hwρ

/-- When `u` has a child labelled `c`, `try_get_child` finds it and the
returned trie (after the possible move-to-front splice) has the same
abstraction: same words, same store size. -/
theorem tryGetChild_found (t : Trie) (ρ ch : Nat → List Nat) (hI : TrieInv t ρ ch)
    (u c : Nat) (hu : u < t.nodes.length) (y : Nat) (hy : y ∈ ch u)
    (hylab : (t.getN y).label = c) :
    ∃ y' t' ch', t.tryGetChild u c = some (y', t') ∧ ρ y' = ρ u ++ [c] ∧
      y' < t.nodes.length ∧ y' ≠ 0 ∧ TrieInv t' ρ ch' ∧
      t'.nodes.length = t.nodes.length := by
  obtain ⟨pre, post, hdec⟩ := List.append_of_mem hy
  have hnd : (pre ++ y :: post).Nodup := by
    have := hI.nodup u
    rwa [hdec] at this
  have hprelab : ∀ z ∈ pre, (t.getN z).label ≠ c := by
    intro z hz hzc
    have hzmem : z ∈ ch u := by
      rw [hdec]
      exact List.mem_append_left _ hz
    have hzy : z = y :=
      List.inj_on_of_nodup_map (hI.labels u) hzmem hy (hzc.trans hylab.symm)
    have hyp : y ∈ pre := hzy ▸ hz
    exact (List.disjoint_of_nodup_append hnd) hyp (by simp)
  have hfuel : (pre ++ y :: post).length ≤ t.nodes.length := by
    refine chain_length_le _ _ hnd ?_
    intro z hz
    refine hI.mem_lt u z ?_
    rwa [hdec]
  have hchain : ChainF t ((t.getN u).first_child) (pre ++ y :: post) none := by
    have := hI.chains u hu
    rwa [hdec] at this
  have hscan := tryAux_found t c pre y post none _ t.nodes.length hchain hprelab hylab hfuel
  have hρy : ρ y = ρ u ++ [c] :=
    ((hI.edge u c y hu).mp ⟨hy, hylab⟩).2.2
  have hylt : y < t.nodes.length := hI.mem_lt u y hy
  have hy0 : y ≠ 0 := hI.mem_ne u y hy
  rcases List.eq_nil_or_concat pre with hpre | ⟨pre0, p, hpre⟩
  rotate_left
  · rw [List.concat_eq_append] at hpre
    subst hpre
    rw [lastOr_concat] at hscan
    obtain ⟨hI', hlen', _⟩ := mtf_preserves t ρ ch hI u y p hu pre0 post (by rw [hdec])
    refine ⟨y, t.mtf u y p, _, ?_, hρy, hylt, hy0, hI', hlen'⟩
    unfold Trie.tryGetChild
    rw [hscan]
  · subst hpre
    refine ⟨y, t, ch, ?_, hρy, hylt, hy0, hI, rfl⟩
    unfold Trie.tryGetChild
    rw [hscan]
    rfl

/-- When `u` has no child labelled `c`, `try_get_child` fails and leaves the
trie untouched. -/
theorem tryGetChild_none (t : Trie) (ρ ch : Nat → List Nat) (hI : TrieInv t ρ ch)
    (u c : Nat) (hu : u < t.nodes.length)
    (hnoc : ∀ y ∈ ch u, (t.getN y).label ≠ c) :
    t.tryGetChild u c = none := by
  have hfuel : (ch u).length ≤ t.nodes.length :=
    chain_length_le _ _ (hI.nodup u) (hI.mem_lt u)
  have hscan := tryAux_none t c (ch u) none _ t.nodes.length (hI.chains u hu) hnoc hfuel
  unfold Trie.tryGetChild
  rw [hscan]

/-- Simulation relation between a state of the source loop and a state of
the dictionary parse: the current node carries the current word, the counts
agree, and the dictionary is exactly the set of words of non-root nodes. -/
def z78Sim (st : Trie × Nat × Nat) (ss : List (List Nat) × List Nat × Nat) : Prop :=
  ∃ ρ ch, TrieInv st.1 ρ ch ∧ st.2.1 < st.1.nodes.length ∧ ρ st.2.1 = ss.2.1 ∧
    st.2.2 = ss.2.2 ∧
    ∀ w, w ∈ ss.1 ↔ ∃ y, y < st.1.nodes.length ∧ y ≠ 0 ∧ ρ y = w

theorem z78Sim_step (st : Trie × Nat × Nat) (ss : List (List Nat) × List Nat × Nat)
    (c : Nat) (h : z78Sim st ss) : z78Sim (z78Step st c) (z78SpecStep ss c) := by
  obtain ⟨t, v, z⟩ := st
  obtain ⟨D, w, zs⟩ := ss
  obtain ⟨ρ, ch, hI, hv, hρv, hz, hD⟩ := h
  dsimp at hI hv hρv hz hD
  by_cases hfound : ∃ y, y ∈ ch v ∧ (t.getN y).label = c
  · obtain ⟨y, hy, hylab⟩ := hfound
    obtain ⟨y', t', ch', heq, hρy', hy'lt, hy'0, hI', hlen'⟩ :=
      tryGetChild_found t ρ ch hI v c hv y hy hylab
    have hin : (w ++ [c]) ∈ D := by
      refine (hD _).mpr ⟨y', hy'lt, hy'0, ?_⟩
      rw [hρy', hρv]
    have hstep : z78Step (t, v, z) c = (t', y', z) := by
      unfold z78Step
      dsimp
      rw [heq]
    have hsstep : z78SpecStep (D, w, zs) c = (D, w ++ [c], zs) := by
      unfold z78SpecStep
      dsimp
      rw [if_pos hin]
    rw [hstep, hsstep]
    refine ⟨ρ, ch', hI', ?_, ?_, hz, ?_⟩
    · dsimp
      rw [hlen']
      exact hy'lt
    · dsimp
      rw [hρy', hρv]
    · intro w'
      dsimp
      rw [hlen']
      exact hD w'
  · have hnoc : ∀ y ∈ ch v, (t.getN y).label ≠ c := by
      intro y hy hc
      exact hfound ⟨y, hy, hc⟩
    have heq := tryGetChild_none t ρ ch hI v c hv hnoc
    have hnotin : (w ++ [c]) ∉ D := by
      intro hin
      obtain ⟨y, hylt, hy0, hρy⟩ := (hD _).mp hin
      have hρy' : ρ y = ρ v ++ [c] := by rw [hρy, ← hρv]
      have := (hI.edge v c y hv).mpr ⟨hylt, hy0, hρy'⟩
      exact hfound ⟨y, this.1, this.2⟩
    have hstep : z78Step (t, v, z) c = ((t.insertChild v c).2, 0, z + 1) := by
      unfold z78Step
      dsimp
      rw [heq]
    have hsstep : z78SpecStep (D, w, zs) c = ((w ++ [c]) :: D, [], zs + 1) := by
      unfold z78SpecStep
      dsimp
      rw [if_neg hnotin]
    rw [hstep, hsstep]
    obtain ⟨hIins, hlenins⟩ := insert_preserves t ρ ch hI v c hv hnoc
    have hroot := hI.root_lt
    refine ⟨(fun y => if y = t.nodes.length then ρ v ++ [c] else ρ y),
      (fun w' => if w' = v then t.nodes.length :: ch v else ch w'), hIins, ?_, ?_, ?_, ?_⟩
    · dsimp
      rw [hlenins]
      omega
    · dsimp
      rw [if_neg (by omega : ¬ (0 : Nat) = t.nodes.length)]
      exact hI.rho_root
    · dsimp
      omega
    · intro w'
      dsimp
      rw [hlenins]
      constructor
      · intro hw'
        rcases List.mem_cons.mp hw' with hcase | hcase
        · refine ⟨t.nodes.length, by omega, by omega, ?_⟩
          rw [if_pos rfl, hρv, hcase]
        · obtain ⟨y, hylt, hy0, hρy⟩ := (hD _).mp hcase
          exact ⟨y, by omega, hy0, by rw [if_neg (by omega : ¬ y = t.nodes.length)]; exact hρy⟩
      · rintro ⟨y, hylt, hy0, hρy⟩
        by_cases hyx : y = t.nodes.length
        · rw [if_pos hyx] at hρy
          have hw' : w' = w ++ [c] := by rw [← hρy, hρv]
          rw [hw']
          exact List.mem_cons_self _ _
        · rw [if_neg hyx] at hρy
          exact List.mem_cons_of_mem _ ((hD _).mpr ⟨y, by omega, hy0, hρy⟩)

theorem z78Sim_foldl (T' : List Nat) :
    ∀ st ss, z78Sim st ss →
      z78Sim (T'.foldl z78Step st) (T'.foldl z78SpecStep ss) := by
  induction T' with
  | nil => intro st ss h; exact h
  | cons c T' ih =>
    intro st ss h
    exact ih _ _ (z78Sim_step st ss c h)

theorem z78Sim_init : z78Sim (Trie.init, 0, 0) ([], [], 0) := by
  refine ⟨fun _ => [], fun _ => [], ?_, by decide, rfl, rfl, ?_⟩
  · refine ⟨by decide, rfl, ?_, fun _ _ => rfl, ?_, ?_, ?_, ?_, ?_, ?_, ?_⟩
    · intro u hu
      have hlen : Trie.init.nodes.length = 1 := rfl
      rw [hlen] at hu
      have hu0 : u = 0 := by omega
      subst hu0
      have : (Trie.init.getN 0).first_child = none := rfl
      rw [this]
      exact ChainF.nil none
    · intro u y hy
      simp at hy
    · intro u y hy
      simp at hy
    · intro u u' y hy
      simp at hy
    · intro u
      exact List.nodup_nil
    · intro u
      exact List.nodup_nil
    · intro u c y hu
      have hlen : Trie.init.nodes.length = 1 := rfl
      rw [hlen] at hu ⊢
      constructor
      · rintro ⟨hmem, _⟩
        simp at hmem
      · rintro ⟨hylt, hy0, _⟩
        omega
    · intro y hy hy0
      have hlen : Trie.init.nodes.length = 1 := rfl
      rw [hlen] at hy
      omega
  · intro w
    constructor
    · intro hmem
      simp at hmem
    · rintro ⟨y, hy, hy0, _⟩
      have hlen : Trie.init.nodes.length = 1 := rfl
      rw [hlen] at hy
      omega

/-- C3: the LZ78 counter of the source (greedy descent through the
move-to-front trie, one phrase per fresh child, plus a final phrase when the
parse ends below the root) equals the phrase count of the standard greedy
dictionary-based LZ78 parse, for every input byte sequence. -/
theorem z78_code_eq_standard_parse : ∀ T' : List Nat, z78Code T' = z78Spec T' := by
  intro T'
  have hsim := z78Sim_foldl T' _ _ z78Sim_init
  obtain ⟨ρ, ch, hI, hv, hρv, hz, _⟩ := hsim
  simp only [z78Code, z78Spec]
  have hvw : (T'.foldl z78Step (Trie.init, 0, 0)).2.1 = 0 ↔
      (T'.foldl z78SpecStep ([], [], 0)).2.1 = [] := by
    constructor
    · intro h
      rw [← hρv, h, hI.rho_root]
    · intro h
      by_contra hne
      exact (hI.rho_ne_nil _ hv hne) (hρv.trans h)
  rw [hz]
  by_cases h0 : (T'.foldl z78Step (Trie.init, 0, 0)).2.1 = 0
  · rw [if_neg (by simpa using h0), if_neg (by simpa using hvw.mp h0)]
  · rw [if_pos h0, if_pos (fun h => h0 (hvw.mpr h))]

/-! ## C5: order and common-prefix lemmas for the delta kernel -/

theorem lexLt_irrefl (a : List Nat) : lexLt a a = false := by
  induction a with
  | nil => rfl
  | cons x a ih => simp [lexLt, ih]

theorem lexLt_trans : ∀ a b c : List Nat,
    lexLt a b = true → lexLt b c = true → lexLt a c = true := by
  intro a
  induction a with
  | nil =>
    intro b c hab hbc
    cases b with
    | nil => exact absurd hab (by simp [lexLt])
    | cons y bs =>
      cases c with
      | nil => exact absurd hbc (by simp [lexLt])
      | cons z cs => simp [lexLt]
  | cons x as ih =>
    intro b c hab hbc
    cases b with
    | nil => exact absurd hab (by simp [lexLt])
    | cons y bs =>
      cases c with
      | nil => exact absurd hbc (by simp [lexLt])
      | cons z cs =>
        simp only [lexLt] at hab hbc ⊢
        by_cases hxy : x < y
        · by_cases hyz : y < z
          · rw [if_pos (by omega)]
          · rw [if_neg hyz] at hbc
            by_cases hyz' : y = z
            · rw [if_pos (by omega)]
            · rw [if_neg hyz'] at hbc
              exact absurd hbc (by simp)
        · rw [if_neg hxy] at hab
          by_cases hxy' : x = y
          · rw [if_pos hxy'] at hab
            by_cases hyz : y < z
            · rw [if_pos (by omega)]
            · rw [if_neg hyz] at hbc
              by_cases hyz' : y = z
              · rw [if_neg (by omega), if_pos (by omega)]
                rw [if_pos hyz'] at hbc
                exact ih bs cs hab hbc
              · rw [if_neg hyz'] at hbc
                exact absurd hbc (by simp)
          · rw [if_neg hxy'] at hab
            exact absurd hab (by simp)

theorem lexLt_asymm (a b : List Nat) (h : lexLt a b = true) : lexLt b a = false := by
  by_contra hc
  have hba : lexLt b a = true := by
    cases hh : lexLt b a
    · exact absurd hh hc
    · rfl
  have := lexLt_trans a b a h hba
  rw [lexLt_irrefl] at this
  exact absurd this (by simp)

/-- Weak lexicographic order. -/
def lexLe (a b : List Nat) : Prop := lexLt a b = true ∨ a = b

theorem lexLe_trans (a b c : List Nat) (h1 : lexLe a b) (h2 : lexLe b c) : lexLe a c := by
  rcases h1 with h1 | rfl
  · rcases h2 with h2 | rfl
    · exact Or.inl (lexLt_trans a b c h1 h2)
    · exact Or.inl h1
  · exact h2

theorem lexLe_antisymm (a b : List Nat) (h1 : lexLe a b) (h2 : lexLe b a) : a = b := by
  rcases h1 with h1 | rfl
  · rcases h2 with h2 | rfl
    · have := lexLt_asymm a b h1
      rw [h2] at this
      exact absurd this (by simp)
    · rfl
  · rfl

theorem lcpLen_le_left (a b : List Nat) : lcpLen a b ≤ a.length := by
  induction a generalizing b with
  | nil => cases b <;> simp [lcpLen]
  | cons x as ih =>
    cases b with
    | nil => simp [lcpLen]
    | cons y bs =>
      simp only [lcpLen]
      by_cases hxy : x = y
      · rw [if_pos hxy]
        have := ih bs
        simp
        omega
      · rw [if_neg hxy]
        simp

theorem lcpLen_le_right (a b : List Nat) : lcpLen a b ≤ b.length := by
  induction a generalizing b with
  | nil => cases b <;> simp [lcpLen]
  | cons x as ih =>
    cases b with
    | nil => simp [lcpLen]
    | cons y bs =>
      simp only [lcpLen]
      by_cases hxy : x = y
      · rw [if_pos hxy]
        have := ih bs
        simp
        omega
      · rw [if_neg hxy]
        simp

theorem take_eq_iff_lcpLen : ∀ (k : Nat) (a b : List Nat), k ≤ a.length → k ≤ b.length →
    (a.take k = b.take k ↔ k ≤ lcpLen a b) := by
  intro k
  induction k with
  | zero => intro a b _ _; simp
  | succ k ih =>
    intro a b ha hb
    cases a with
    | nil => simp at ha
    | cons x as =>
      cases b with
      | nil => simp at hb
      | cons y bs =>
        simp only [List.take_succ_cons, lcpLen]
        by_cases hxy : x = y
        · rw [if_pos hxy]
          subst hxy
          simp only [List.cons.injEq, true_and]
          rw [ih as bs (by simpa using ha) (by simpa using hb)]
          omega
        · rw [if_neg hxy]
          simp only [List.cons.injEq]
          constructor
          · rintro ⟨h, _⟩
            exact absurd h hxy
          · intro h
            omega

/-- For three strings in strictly increasing lexicographic order, the
common-prefix length of the outer pair is the minimum of the two inner
ones. -/
theorem lcpLen_sorted_triple : ∀ a b c : List Nat, lexLt a b = true → lexLt b c = true →
    lcpLen a c = min (lcpLen a b) (lcpLen b c) := by
  intro a
  induction a with
  | nil =>
    intro b c hab hbc
    cases c with
    | nil =>
      cases b with
      | nil => simp [lexLt] at hab
      | cons y bs => simp [lexLt] at hbc
    | cons z cs => simp [lcpLen]
  | cons x as ih =>
    intro b c hab hbc
    cases b with
    | nil => simp [lexLt] at hab
    | cons y bs =>
      cases c with
      | nil => simp [lexLt] at hbc
      | cons z cs =>
        simp only [lexLt] at hab hbc
        simp only [lcpLen]
        by_cases hxy : x < y
        · rw [if_neg (by omega : ¬ x = y)]
          by_cases hyz : y < z
          · rw [if_neg (by omega : ¬ x = z), if_neg (by omega : ¬ y = z)]
            simp
          · rw [if_neg hyz] at hbc
            by_cases hyz' : y = z
            · rw [if_neg (by omega : ¬ x = z)]
              simp
            · rw [if_neg hyz'] at hbc
              simp at hbc
        · rw [if_neg hxy] at hab
          by_cases hxy' : x = y
          · rw [if_pos hxy'] at hab
            by_cases hyz : y < z
            · rw [if_pos hxy']
              rw [if_neg (by omega : ¬ y = z), if_neg (by omega : ¬ x = z)]
              simp
            · rw [if_neg hyz] at hbc
              by_cases hyz' : y = z
              · rw [if_pos hyz'] at hbc
                rw [if_pos hxy', if_pos hyz', if_pos (by omega : x = z)]
                rw [ih bs cs hab hbc]
                omega
              · rw [if_neg hyz'] at hbc
                simp at hbc
          · rw [if_neg hxy'] at hab
            simp at hab

/-- Taking a fixed-length starting segment is monotone for `lexLt`. -/
theorem take_lexLe_of_lexLt : ∀ (k : Nat) (a b : List Nat), lexLt a b = true →
    lexLe (a.take k) (b.take k) := by
  intro k
  induction k with
  | zero => intro a b _; exact Or.inr rfl
  | succ k ih =>
    intro a b hab
    cases a with
    | nil =>
      cases b with
      | nil => simp [lexLt] at hab
      | cons y bs => exact Or.inl (by simp [lexLt])
    | cons x as =>
      cases b with
      | nil => simp [lexLt] at hab
      | cons y bs =>
        simp only [lexLt] at hab
        simp only [List.take_succ_cons]
        by_cases hxy : x < y
        · exact Or.inl (by simp [lexLt, hxy])
        · rw [if_neg hxy] at hab
          by_cases hxy' : x = y
          · rw [if_pos hxy'] at hab
            subst hxy'
            rcases ih as bs hab with h | h
            · exact Or.inl (by simp [lexLt, h])
            · exact Or.inr (by rw [h])
          · rw [if_neg hxy'] at hab
            simp at hab

/-! ### Suffix-array facts used by the delta identity -/

/-- Suffix of `T` at suffix-array rank `i`. -/
def sufOf (T sa : List Nat) (i : Nat) : List Nat := T.drop (sa.getD i 0)

/-- LCP value between ranks `i-1` and `i`. -/
def lcpaOf (T sa : List Nat) (i : Nat) : Nat := lcpLen (sufOf T sa (i - 1)) (sufOf T sa i)

theorem getD_drop (l : List Nat) (p j : Nat) :
    (l.drop p).getD j 0 = l.getD (p + j) 0 := by
  rw [List.getD_eq_getElem?_getD, List.getD_eq_getElem?_getD, List.getElem?_drop]

theorem lcpLen_getD : ∀ (a b : List Nat) (m : Nat), m < lcpLen a b →
    a.getD m 0 = b.getD m 0 := by
  intro a
  induction a with
  | nil => intro b m h; simp [lcpLen] at h
  | cons x as ih =>
    intro b m h
    cases b with
    | nil => simp [lcpLen] at h
    | cons y bs =>
      simp only [lcpLen] at h
      by_cases hxy : x = y
      · rw [if_pos hxy] at h
        cases m with
        | zero => simpa using hxy
        | succ m =>
          simp only [List.getD_cons_succ]
          exact ih bs m (by omega)
      · rw [if_neg hxy] at h
        omega

theorem sorted_suf (T sa : List Nat) (hsa : IsSuffixArray T sa) (i j : Nat)
    (hij : i < j) (hj : j < T.length) :
    lexLt (sufOf T sa i) (sufOf T sa j) = true :=
  hsa.2.2 j hj i hij

theorem pos_inj (T sa : List Nat) (hsa : IsSuffixArray T sa) (i j : Nat)
    (hi : i < T.length) (hj : j < T.length) (h : sa.getD i 0 = sa.getD j 0) : i = j := by
  rcases Nat.lt_trichotomy i j with hij | hij | hij
  · have := sorted_suf T sa hsa i j hij hj
    unfold sufOf at this
    rw [h, lexLt_irrefl] at this
    exact absurd this (by simp)
  · exact hij
  · have := sorted_suf T sa hsa j i hij hi
    unfold sufOf at this
    rw [h, lexLt_irrefl] at this
    exact absurd this (by simp)

theorem pos_surj (T sa : List Nat) (hsa : IsSuffixArray T sa) (j : Nat)
    (hj : j < T.length) : ∃ i, i < T.length ∧ sa.getD i 0 = j := by
  classical
  set n := T.length with hn
  have himg : (Finset.range n).image (fun i => sa.getD i 0) = Finset.range n := by
    apply Finset.eq_of_subset_of_card_le
    · intro v hv
      rw [Finset.mem_image] at hv
      obtain ⟨i, hi, rfl⟩ := hv
      rw [Finset.mem_range] at hi ⊢
      exact hsa.2.1 i hi
    · rw [Finset.card_range]
      rw [Finset.card_image_of_injOn]
      · rw [Finset.card_range]
      · intro a ha b hb hab
        rw [Finset.mem_coe, Finset.mem_range] at ha hb
        exact pos_inj T sa hsa a b ha hb hab
  have hjmem : j ∈ (Finset.range n).image (fun i => sa.getD i 0) := by
    rw [himg, Finset.mem_range]
    exact hj
  rw [Finset.mem_image] at hjmem
  obtain ⟨i, hi, hij⟩ := hjmem
  rw [Finset.mem_range] at hi
  exact ⟨i, hi, hij⟩

theorem suf_head (T sa : List Nat) (hsa : IsSuffixArray T sa) (i : Nat) (hi : i < T.length) :
    sufOf T sa i = T.getD (sa.getD i 0) 0 :: T.drop (sa.getD i 0 + 1) := by
  unfold sufOf
  have hlt : sa.getD i 0 < T.length := hsa.2.1 i hi
  rw [List.drop_eq_getElem_cons hlt]
  rw [List.getD_eq_getElem _ _ hlt]

/-- Rank 0 holds the sentinel suffix. -/
theorem sa_zero (T sa : List Nat) (hT : ValidText T) (hsa : IsSuffixArray T sa) :
    sa.getD 0 0 = T.length - 1 := by
  obtain ⟨hn2, hlast, hnz⟩ := hT
  have hlast0 : T.getD (T.length - 1) 0 = 0 := by
    have hlt : T.length - 1 < T.length := by omega
    rw [List.getD_eq_getElem T 0 hlt]
    rw [List.getD_eq_getElem T 1 hlt] at hlast
    exact hlast
  obtain ⟨r, hr, hrj⟩ := pos_surj T sa hsa (T.length - 1) (by omega)
  by_cases hr0 : r = 0
  · rw [hr0] at hrj
    exact hrj
  · exfalso
    have hsorted := sorted_suf T sa hsa 0 r (by omega) hr
    have hsfr : sufOf T sa r = [0] := by
      rw [suf_head T sa hsa r hr, hrj, hlast0]
      have : T.drop (T.length - 1 + 1) = [] := by
        apply List.drop_eq_nil_of_le
        omega
      rw [this]
    have hp0 : sa.getD 0 0 < T.length - 1 := by
      have h1 : sa.getD 0 0 < T.length := hsa.2.1 0 (by omega)
      have h2 : sa.getD 0 0 ≠ T.length - 1 := by
        intro heq
        exact hr0 (pos_inj T sa hsa r 0 hr (by omega) (by rw [hrj, heq]))
      omega
    have hsf0 : sufOf T sa 0 = T.getD (sa.getD 0 0) 0 :: T.drop (sa.getD 0 0 + 1) :=
      suf_head T sa hsa 0 (by omega)
    rw [hsf0, hsfr] at hsorted
    have hhead : T.getD (sa.getD 0 0) 0 ≠ 0 := hnz _ hp0
    simp only [lexLt] at hsorted
    rw [if_neg (by omega), if_neg hhead] at hsorted
    exact absurd hsorted (by simp)

theorem length_suf (T sa : List Nat) (i : Nat) :
    (sufOf T sa i).length = T.length - sa.getD i 0 := by
  unfold sufOf
  rw [List.length_drop]

/-- Adjacent-rank LCP values are at most `n - 2` for a valid text. -/
theorem lcpa_le (T sa : List Nat) (hT : ValidText T) (hsa : IsSuffixArray T sa)
    (i : Nat) (h1 : 1 ≤ i) (hi : i < T.length) :
    lcpaOf T sa i ≤ T.length - 2 := by
  obtain ⟨hn2, hlast, hnz⟩ := hT
  have hlast0 : T.getD (T.length - 1) 0 = 0 := by
    have hlt : T.length - 1 < T.length := by omega
    rw [List.getD_eq_getElem T 0 hlt]
    rw [List.getD_eq_getElem T 1 hlt] at hlast
    exact hlast
  set n := T.length with hn
  set p1 := sa.getD (i - 1) 0 with hp1
  set p2 := sa.getD i 0 with hp2
  have hp1lt : p1 < n := hsa.2.1 (i - 1) (by omega)
  have hp2lt : p2 < n := hsa.2.1 i (by omega)
  have hne : p1 ≠ p2 := by
    intro h
    have := pos_inj T sa hsa (i - 1) i (by omega) hi h
    omega
  by_contra hcon
  push_neg at hcon
  have hq : 1 ≤ max p1 p2 := by omega
  set m := n - max p1 p2 with hm
  have hmpos : 1 ≤ m := by omega
  have hlcp1 : lcpaOf T sa i ≤ n - p1 := by
    have := lcpLen_le_left (sufOf T sa (i - 1)) (sufOf T sa i)
    rw [length_suf] at this
    exact this
  have hlcp2 : lcpaOf T sa i ≤ n - p2 := by
    have := lcpLen_le_right (sufOf T sa (i - 1)) (sufOf T sa i)
    rw [length_suf] at this
    exact this
  have hml : m - 1 < lcpaOf T sa i := by omega
  have heq := lcpLen_getD (sufOf T sa (i - 1)) (sufOf T sa i) (m - 1) hml
  unfold sufOf at heq
  rw [getD_drop, getD_drop] at heq
  rcases Nat.lt_or_ge p1 p2 with hlt | hge
  · have hmax : max p1 p2 = p2 := by omega
    have h2 : p2 + (m - 1) = n - 1 := by omega
    have h1' : p1 + (m - 1) < n - 1 := by omega
    rw [h2, hlast0] at heq
    exact hnz _ h1' heq
  · have hmax : max p1 p2 = p1 := by omega
    have h1' : p1 + (m - 1) = n - 1 := by omega
    have h2' : p2 + (m - 1) < n - 1 := by omega
    rw [h1', hlast0] at heq
    exact hnz _ h2' heq.symm

/-! ### Counting distinct elements of a weakly sorted list -/

/-- Number of adjacent boundaries (places where consecutive entries differ). -/
def adjBound : List (List Nat) → Nat
  | [] => 0
  | [_] => 0
  | a :: b :: rest => (if a ≠ b then 1 else 0) + adjBound (b :: rest)

theorem card_of_pairwise_lexLe : ∀ l : List (List Nat), List.Pairwise lexLe l →
    l.toFinset.card = adjBound l + (if l = [] then 0 else 1) := by
  intro l
  induction l with
  | nil => intro _; simp [adjBound]
  | cons a t ih =>
    intro hp
    cases t with
    | nil => simp [adjBound]
    | cons b t' =>
      obtain ⟨hax, hp'⟩ := List.pairwise_cons.mp hp
      have hab : lexLe a b := hax b (by simp)
      have hIH := ih hp'
      by_cases heq : a = b
      · have hmem : a ∈ (b :: t').toFinset := by
          rw [List.mem_toFinset]
          simp [heq]
        rw [List.toFinset_cons, Finset.insert_eq_self.mpr hmem, hIH]
        simp [adjBound, heq]
      · have hnot : a ∉ (b :: t').toFinset := by
          rw [List.mem_toFinset]
          intro hmem
          rcases List.mem_cons.mp hmem with h | h
          · exact heq h
          · have hba : lexLe b a := (List.pairwise_cons.mp hp').1 a h
            exact heq (lexLe_antisymm a b hab hba)
        rw [List.toFinset_cons, Finset.card_insert_of_not_mem hnot, hIH]
        simp only [adjBound, if_pos heq]
        simp
        omega

theorem countP_lt_succ (l : List Nat) (f : Nat → Nat) (k : Nat) :
    l.countP (fun i => decide (f i < k + 1)) =
      l.countP (fun i => decide (f i < k)) + l.countP (fun i => decide (f i = k)) := by
  induction l with
  | nil => simp
  | cons a l ih =>
    rw [List.countP_cons, List.countP_cons, List.countP_cons, ih]
    rcases Nat.lt_trichotomy (f a) k with h | h | h
    · simp [h, Nat.lt_succ_of_lt h, Nat.ne_of_lt h]
      omega
    · simp [h]
      omega
    · simp [show ¬ f a < k + 1 by omega, show ¬ f a < k by omega, show ¬ f a = k by omega]

theorem countP_and_not (l : List Nat) (p q : Nat → Bool)
    (h : ∀ i ∈ l, p i = false → q i = true) :
    l.countP (fun i => p i && q i) + l.countP (fun i => !(p i)) = l.countP q := by
  induction l with
  | nil => simp
  | cons a l ih =>
    rw [List.countP_cons, List.countP_cons, List.countP_cons,
      ← ih (fun i hi => h i (List.mem_cons_of_mem _ hi))]
    cases hpa : p a
    · have hqa : q a = true := h a (by simp) hpa
      simp [hpa, hqa]
      omega
    · cases hqa : q a
      · simp [hpa, hqa]
      · simp [hpa, hqa]
        omega

/-! ### The boundary/LCP bridge -/

/-- Rank `i` holds a suffix of length at least `k`. -/
def longB (T sa : List Nat) (k i : Nat) : Bool := decide (k ≤ T.length - sa.getD i 0)

/-- Rank `i` starts a new distinct `k`-prefix: long suffix and small LCP. -/
def predCB (T sa : List Nat) (k i : Nat) : Bool :=
  longB T sa k i && decide (lcpaOf T sa i < k)

/-- The `k`-prefix of the suffix at rank `i`. -/
def pf (T sa : List Nat) (k i : Nat) : List Nat := (sufOf T sa i).take k

theorem longB_true_iff (T sa : List Nat) (k i : Nat) :
    longB T sa k i = true ↔ k ≤ T.length - sa.getD i 0 := by
  unfold longB
  rw [decide_eq_true_eq]

theorem longB_false_iff (T sa : List Nat) (k i : Nat) :
    longB T sa k i = false ↔ T.length - sa.getD i 0 < k := by
  unfold longB
  rw [decide_eq_false_iff_not]
  omega

theorem lcpa_le_len_pred (T sa : List Nat) (s : Nat) :
    lcpaOf T sa s ≤ T.length - sa.getD (s - 1) 0 := by
  have h := lcpLen_le_left (sufOf T sa (s - 1)) (sufOf T sa s)
  rw [length_suf] at h
  exact h

theorem boundary_iff (T sa : List Nat) (hsa : IsSuffixArray T sa)
    (k r0 s : Nat) (hr0s : r0 < s) (hs : s < T.length)
    (hP0 : longB T sa k r0 = true) (hPs : longB T sa k s = true)
    (hgap : ∀ t', r0 < t' → t' < s → longB T sa k t' = false) :
    (¬ pf T sa k r0 = pf T sa k s) ↔ lcpaOf T sa s < k := by
  have hlen0 : k ≤ (sufOf T sa r0).length := by
    rw [length_suf]
    exact (longB_true_iff T sa k r0).mp hP0
  have hlens : k ≤ (sufOf T sa s).length := by
    rw [length_suf]
    exact (longB_true_iff T sa k s).mp hPs
  by_cases hcase : s = r0 + 1
  · have hpred : s - 1 = r0 := by omega
    unfold pf
    rw [take_eq_iff_lcpLen k _ _ hlen0 hlens]
    unfold lcpaOf
    rw [hpred]
    omega
  · have hm : r0 < s - 1 := by omega
    have hshort := hgap (s - 1) hm (by omega)
    have hlenb : T.length - sa.getD (s - 1) 0 < k :=
      (longB_false_iff T sa k (s - 1)).mp hshort
    have hrhs : lcpaOf T sa s < k := by
      have := lcpa_le_len_pred T sa s
      omega
    refine ⟨fun _ => hrhs, fun _ heq => ?_⟩
    unfold pf at heq
    rw [take_eq_iff_lcpLen k _ _ hlen0 hlens] at heq
    have htriple := lcpLen_sorted_triple (sufOf T sa r0) (sufOf T sa (s - 1)) (sufOf T sa s)
      (sorted_suf T sa hsa r0 (s - 1) hm (by omega))
      (sorted_suf T sa hsa (s - 1) s (by omega) hs)
    unfold lcpaOf at hrhs
    omega

theorem bridge (T sa : List Nat) (hsa : IsSuffixArray T sa) (k : Nat) :
    ∀ m s r0, r0 < s → longB T sa k r0 = true →
      (∀ t', r0 < t' → t' < s → longB T sa k t' = false) → s + m ≤ T.length →
      adjBound (pf T sa k r0 :: ((List.range' s m).filter (longB T sa k)).map (pf T sa k)) =
        (List.range' s m).countP (predCB T sa k) := by
  intro m
  induction m with
  | zero => intro s r0 _ _ _ _; rfl
  | succ m ih =>
    intro s r0 hr0s hP0 hgap hsm
    rw [List.range'_succ]
    cases hPs : longB T sa k s
    · rw [List.filter_cons_of_neg (by simp [hPs]), List.countP_cons]
      rw [ih (s + 1) r0 (by omega) hP0 ?hgap (by omega)]
      · simp [predCB, hPs]
      case hgap =>
        intro t' h1 h2
        by_cases ht : t' = s
        · rw [ht]
          exact hPs
        · exact hgap t' h1 (by omega)
    · rw [List.filter_cons_of_pos (by simp [hPs]), List.map_cons, List.countP_cons]
      have hkey := boundary_iff T sa hsa k r0 s hr0s (by omega) hP0 hPs hgap
      have hih := ih (s + 1) s (by omega) hPs (by omega) (by omega)
      show (if pf T sa k r0 ≠ pf T sa k s then 1 else 0) +
          adjBound (pf T sa k s :: ((List.range' (s + 1) m).filter (longB T sa k)).map (pf T sa k)) = _
      rw [hih]
      have hpc : predCB T sa k s = decide (lcpaOf T sa s < k) := by
        simp [predCB, hPs]
      rw [hpc]
      by_cases hlt : lcpaOf T sa s < k
      · rw [if_pos (hkey.mpr hlt)]
        simp [hlt]
        omega
      · rw [if_neg (fun hne => hlt (hkey.mp hne))]
        simp [hlt]

theorem bridge0 (T sa : List Nat) (hsa : IsSuffixArray T sa) (k : Nat) :
    ∀ m s, 1 ≤ s → (∀ t', t' < s → longB T sa k t' = false) → s + m ≤ T.length →
      (List.range' s m).countP (predCB T sa k) =
        adjBound (((List.range' s m).filter (longB T sa k)).map (pf T sa k)) +
          (if ((List.range' s m).filter (longB T sa k)) = [] then 0 else 1) := by
  intro m
  induction m with
  | zero => intro s _ _ _; rfl
  | succ m ih =>
    intro s hs1 hgap hsm
    rw [List.range'_succ]
    cases hPs : longB T sa k s
    · rw [List.filter_cons_of_neg (by simp [hPs]), List.countP_cons]
      rw [ih (s + 1) (by omega) ?hgap (by omega)]
      · simp [predCB, hPs]
      case hgap =>
        intro t' h1
        by_cases ht : t' = s
        · rw [ht]
          exact hPs
        · exact hgap t' (by omega)
    · rw [List.filter_cons_of_pos (by simp [hPs]), List.map_cons, List.countP_cons]
      have hshort := hgap (s - 1) (by omega)
      have hlcpa : lcpaOf T sa s < k := by
        have h1 := lcpa_le_len_pred T sa s
        have h2 := (longB_false_iff T sa k (s - 1)).mp hshort
        omega
      have hpc : predCB T sa k s = true := by
        simp [predCB, hPs, hlcpa]
      have hbr := bridge T sa hsa k m (s + 1) s (by omega) hPs (by omega) (by omega)
      rw [← hbr, if_neg (List.cons_ne_nil _ _), hpc]
      simp

/-! ### The distinct-window counting formula -/

theorem windows_toFinset (T sa : List Nat) (hsa : IsSuffixArray T sa) (k : Nat) (hk : 1 ≤ k) :
    (windowsK T k).toFinset =
      (((List.range T.length).filter (longB T sa k)).map (pf T sa k)).toFinset := by
  ext w
  simp only [List.mem_toFinset, windowsK, List.mem_map, List.mem_filter, List.mem_range]
  constructor
  · rintro ⟨j, hj, rfl⟩
    obtain ⟨i, hi, hij⟩ := pos_surj T sa hsa j (by omega)
    refine ⟨i, ⟨hi, ?_⟩, ?_⟩
    · rw [longB_true_iff, hij]
      omega
    · unfold pf sufOf
      rw [hij]
  · rintro ⟨i, ⟨hi, hP⟩, rfl⟩
    rw [longB_true_iff] at hP
    have hplt : sa.getD i 0 < T.length := hsa.2.1 i hi
    refine ⟨sa.getD i 0, ?_, rfl⟩
    omega

theorem prefs_pairwise (T sa : List Nat) (hsa : IsSuffixArray T sa) (k : Nat) :
    List.Pairwise lexLe (((List.range T.length).filter (longB T sa k)).map (pf T sa k)) := by
  have h1 : List.Pairwise (fun i j => lexLt (sufOf T sa i) (sufOf T sa j) = true)
      (List.range T.length) := by
    rw [List.pairwise_iff_getElem]
    intro i j hi hj hij
    simp only [List.getElem_range]
    exact sorted_suf T sa hsa i j hij (by simpa using hj)
  rw [List.pairwise_map]
  exact (h1.filter (longB T sa k)).imp (fun hab => take_lexLe_of_lexLt k _ _ hab)

/-- The number of distinct length-`k` windows of the whole text, counted on
the suffix array: one new window at every rank with a long suffix and a
small LCP, plus the sentinel window when `k = 1`. -/
theorem dcount_formula (T sa : List Nat) (hT : ValidText T) (hsa : IsSuffixArray T sa)
    (k : Nat) (hk : 1 ≤ k) :
    dcount T k = (List.range' 1 (T.length - 1)).countP (predCB T sa k) +
      (if k = 1 then 1 else 0) := by
  have hn2 : 2 ≤ T.length := hT.1
  have hrange : List.range T.length = 0 :: List.range' 1 (T.length - 1) := by
    rw [List.range_eq_range', show T.length = (T.length - 1) + 1 by omega, List.range'_succ]
    simp
  have hlong0 : longB T sa k 0 = decide (k ≤ 1) := by
    rw [show (decide (k ≤ 1)) = decide (k ≤ T.length - (T.length - 1)) by
      congr 1
      simp
      omega]
    unfold longB
    rw [sa_zero T sa hT hsa]
  unfold dcount
  rw [windows_toFinset T sa hsa k hk,
    card_of_pairwise_lexLe _ (prefs_pairwise T sa hsa k), hrange]
  by_cases hk1 : k = 1
  · subst hk1
    rw [List.filter_cons_of_pos (by rw [hlong0]; simp), List.map_cons]
    rw [bridge T sa hsa 1 (T.length - 1) 1 0 (by omega) (by rw [hlong0]; simp)
      (by intro t' h1 h2; omega) (by omega)]
    rw [if_neg (by simp)]
    simp
  · rw [List.filter_cons_of_neg (by rw [hlong0]; simp; omega)]
    rw [bridge0 T sa hsa k (T.length - 1) 1 (by omega)
      (by intro t' ht; rw [show t' = 0 by omega, hlong0]; simp; omega) (by omega)]
    rw [if_neg hk1]
    by_cases hnil : (List.range' 1 (T.length - 1)).filter (longB T sa k) = []
    · rw [hnil]
      simp
    · rw [if_neg hnil, if_neg (by simpa using hnil)]

/-! ### Counting short suffixes among the ranks -/

theorem countP_range_card (n : Nat) (p : Nat → Bool) :
    (List.range n).countP p = ((Finset.range n).filter (fun i => p i = true)).card := by
  rw [List.countP_eq_length_filter]
  have hnd : ((List.range n).filter p).Nodup := (List.nodup_range n).filter _
  rw [← List.toFinset_card_of_nodup hnd]
  congr 1
  ext v
  simp [List.mem_filter, List.mem_toFinset, List.mem_range]

theorem count_short (T sa : List Nat) (hT : ValidText T) (hsa : IsSuffixArray T sa)
    (k : Nat) (h2 : 2 ≤ k) (hkn : k ≤ T.length) :
    (List.range' 1 (T.length - 1)).countP (fun i => !(longB T sa k i)) = k - 2 := by
  classical
  have hn2 : 2 ≤ T.length := hT.1
  set n := T.length with hn
  have hrange : List.range n = 0 :: List.range' 1 (n - 1) := by
    rw [List.range_eq_range', show n = (n - 1) + 1 by omega, List.range'_succ]
    simp
  have hlong0 : longB T sa k 0 = false := by
    rw [longB_false_iff, sa_zero T sa hT hsa]
    omega
  have htot : (List.range n).countP (fun i => !(longB T sa k i)) = k - 1 := by
    rw [countP_range_card]
    have hfe : (Finset.range n).filter (fun i => (!(longB T sa k i)) = true) =
        (Finset.range n).filter (fun i => n - sa.getD i 0 < k) := by
      refine Finset.filter_congr ?_
      intro i _
      rw [Bool.not_eq_true']
      rw [longB_false_iff]
    rw [hfe]
    have hinj : Set.InjOn (fun i => n - sa.getD i 0) (Finset.range n) := by
      intro a ha b hb hab
      rw [Finset.coe_range, Set.mem_Iio] at ha hb
      have ha' : sa.getD a 0 < n := hsa.2.1 a ha
      have hb' : sa.getD b 0 < n := hsa.2.1 b hb
      have : sa.getD a 0 = sa.getD b 0 := by
        simp only at hab
        omega
      exact pos_inj T sa hsa a b ha hb this
    have himg : (Finset.range n).image (fun i => n - sa.getD i 0) = Finset.Icc 1 n := by
      apply Finset.eq_of_subset_of_card_le
      · intro v hv
        rw [Finset.mem_image] at hv
        obtain ⟨i, hi, rfl⟩ := hv
        rw [Finset.mem_range] at hi
        have := hsa.2.1 i hi
        rw [Finset.mem_Icc]
        omega
      · rw [Nat.card_Icc, Finset.card_image_of_injOn hinj, Finset.card_range]
        omega
    have hif : ((Finset.range n).filter (fun i => n - sa.getD i 0 < k)).card =
        ((Finset.Icc 1 n).filter (fun v => v < k)).card := by
      rw [← himg, Finset.filter_image]
      rw [Finset.card_image_of_injOn (hinj.mono (Finset.filter_subset _ _))]
    rw [hif]
    have : (Finset.Icc 1 n).filter (fun v => v < k) = Finset.Icc 1 (k - 1) := by
      ext v
      rw [Finset.mem_filter, Finset.mem_Icc, Finset.mem_Icc]
      omega
    rw [this, Nat.card_Icc]
    omega
  rw [hrange, List.countP_cons] at htot
  rw [hlong0] at htot
  simp at htot
  omega

/-! ### The counter array of the delta kernel -/

theorem getD_set_self (l : List Nat) (j v : Nat) (h : j < l.length) :
    (l.set j v).getD j 0 = v := by
  rw [List.getD_eq_getElem?_getD, List.getElem?_set_self h]
  rfl

theorem getD_set_ne (l : List Nat) (j m v : Nat) (h : ¬ j = m) :
    (l.set j v).getD m 0 = l.getD m 0 := by
  rw [List.getD_eq_getElem?_getD, List.getElem?_set_ne h, ← List.getD_eq_getElem?_getD]

theorem dk_fold (lcp : List Nat) (n : Nat) :
    ∀ (idx : List Nat) (dk0 : List Nat), dk0.length = n →
      (∀ i ∈ idx, lcp.getD i 0 + 1 < n) → ∀ m, m < n →
      (idx.foldl (fun dk i => dk.set (lcp.getD i 0 + 1) (dk.getD (lcp.getD i 0 + 1) 0 + 1)) dk0).getD m 0
        = dk0.getD m 0 + idx.countP (fun i => decide (lcp.getD i 0 + 1 = m)) := by
  intro idx
  induction idx with
  | nil => intro dk0 _ _ m _; simp
  | cons a idx ih =>
    intro dk0 hlen hin m hm
    rw [List.foldl_cons, List.countP_cons]
    have hv : lcp.getD a 0 + 1 < n := hin a (by simp)
    have hih := ih (dk0.set (lcp.getD a 0 + 1) (dk0.getD (lcp.getD a 0 + 1) 0 + 1))
      (by rw [List.length_set]; exact hlen) (fun i hi => hin i (by simp [hi])) m hm
    rw [hih]
    by_cases heq : lcp.getD a 0 + 1 = m
    · rw [heq]
      rw [getD_set_self _ _ _ (by omega)]
      simp
      omega
    · rw [getD_set_ne _ _ _ _ heq, decide_eq_false heq]
      simp

theorem dkList_getD (n : Nat) (lcp : List Nat)
    (hinb : ∀ i ∈ List.range' 1 (n - 1), lcp.getD i 0 + 1 < n)
    (m : Nat) (hm : m < n) :
    (dkList n lcp).getD m 0 =
      (List.range' 1 (n - 1)).countP (fun i => decide (lcp.getD i 0 + 1 = m)) := by
  unfold dkList
  rw [dk_fold lcp n _ _ (by simp) hinb m hm]
  simp

/-! ### Counting ranks below an LCP threshold -/

/-- Number of ranks `i ∈ [1, n)` whose LCP with the previous rank is below `k`. -/
def cntLt (T sa : List Nat) (k : Nat) : Nat :=
  (List.range' 1 (T.length - 1)).countP (fun i => decide (lcpaOf T sa i < k))

theorem countP_predCB_one (T sa : List Nat) (hsa : IsSuffixArray T sa) :
    (List.range' 1 (T.length - 1)).countP (predCB T sa 1) = cntLt T sa 1 := by
  unfold cntLt
  refine List.countP_congr ?_
  intro i hi
  rw [List.mem_range'_1] at hi
  have hin : i < T.length := by omega
  have hpos := hsa.2.1 i hin
  unfold predCB
  rw [(longB_true_iff T sa 1 i).mpr (by omega)]
  simp

theorem cntLt_split (T sa : List Nat) (hT : ValidText T) (hsa : IsSuffixArray T sa)
    (k : Nat) (h2 : 2 ≤ k) (hkn : k ≤ T.length) :
    cntLt T sa k = (List.range' 1 (T.length - 1)).countP (predCB T sa k) + (k - 2) := by
  have h := countP_and_not (List.range' 1 (T.length - 1)) (longB T sa k)
    (fun i => decide (lcpaOf T sa i < k)) ?_
  · rw [count_short T sa hT hsa k h2 hkn] at h
    have hpc : (List.range' 1 (T.length - 1)).countP (predCB T sa k) =
        (List.range' 1 (T.length - 1)).countP
          (fun i => longB T sa k i && decide (lcpaOf T sa i < k)) := rfl
    unfold cntLt
    omega
  · intro i _ hfalse
    rw [longB_false_iff] at hfalse
    rw [decide_eq_true_eq]
    calc lcpaOf T sa i ≤ (sufOf T sa i).length := lcpLen_le_right _ _
      _ = T.length - sa.getD i 0 := length_suf T sa i
      _ < k := hfalse

theorem dcount_cntLt (T sa : List Nat) (hT : ValidText T) (hsa : IsSuffixArray T sa)
    (k : Nat) (hk : 1 ≤ k) (hkn : k ≤ T.length - 1) :
    dcount T k + k = cntLt T sa k + 2 := by
  have hn2 : 2 ≤ T.length := hT.1
  have hd := dcount_formula T sa hT hsa k hk
  by_cases hk1 : k = 1
  · subst hk1
    rw [if_pos rfl] at hd
    rw [hd, countP_predCB_one T sa hsa]
  · have h2 : 2 ≤ k := by omega
    rw [if_neg hk1] at hd
    rw [hd, cntLt_split T sa hT hsa k h2 (by omega)]
    omega

/-! ### The counter array counts LCP values -/

theorem lcp_eq_lcpa (T sa lcp : List Nat) (hlcp : IsLCP T sa lcp)
    (i : Nat) (h1 : 1 ≤ i) (hi : i < T.length) :
    lcp.getD i 0 = lcpaOf T sa i := hlcp.2 i h1 hi

theorem dk_cnt (T sa lcp : List Nat) (hT : ValidText T) (hsa : IsSuffixArray T sa)
    (hlcp : IsLCP T sa lcp) (m : Nat) (hm : m < T.length) :
    (dkList T.length lcp).getD m 0 =
      (List.range' 1 (T.length - 1)).countP (fun i => decide (lcpaOf T sa i + 1 = m)) := by
  have hn2 : 2 ≤ T.length := hT.1
  have hinb : ∀ i ∈ List.range' 1 (T.length - 1), lcp.getD i 0 + 1 < T.length := by
    intro i hi
    rw [List.mem_range'_1] at hi
    rw [lcp_eq_lcpa T sa lcp hlcp i (by omega) (by omega)]
    have := lcpa_le T sa hT hsa i (by omega) (by omega)
    omega
  rw [dkList_getD T.length lcp hinb m hm]
  refine List.countP_congr ?_
  intro i hi
  rw [List.mem_range'_1] at hi
  rw [lcp_eq_lcpa T sa lcp hlcp i (by omega) (by omega)]

theorem cntLt_succ (T sa : List Nat) (k : Nat) :
    cntLt T sa (k + 1) = cntLt T sa k +
      (List.range' 1 (T.length - 1)).countP (fun i => decide (lcpaOf T sa i = k)) := by
  unfold cntLt
  exact countP_lt_succ _ _ k

theorem cntLt_succ_dk (T sa lcp : List Nat) (hT : ValidText T) (hsa : IsSuffixArray T sa)
    (hlcp : IsLCP T sa lcp) (k : Nat) (hk : k + 1 < T.length) :
    cntLt T sa (k + 1) = cntLt T sa k + (dkList T.length lcp).getD (k + 1) 0 := by
  rw [dk_cnt T sa lcp hT hsa hlcp (k + 1) hk, cntLt_succ]
  congr 1
  refine List.countP_congr ?_
  intro i _
  simp only [decide_eq_true_eq]
  omega

theorem cntLt_one_dk (T sa lcp : List Nat) (hT : ValidText T) (hsa : IsSuffixArray T sa)
    (hlcp : IsLCP T sa lcp) (h1 : 1 < T.length) :
    cntLt T sa 1 = (dkList T.length lcp).getD 1 0 := by
  rw [dk_cnt T sa lcp hT hsa hlcp 1 h1]
  unfold cntLt
  refine List.countP_congr ?_
  intro i _
  simp only [decide_eq_true_eq]
  omega

/-! ### Dropping the sentinel loses exactly one window -/

theorem windows_dropLast (T : List Nat) (hT : ValidText T) (k : Nat) (hk : 1 ≤ k)
    (hkn : k ≤ T.length - 1) :
    windowsK T k = windowsK T.dropLast k ++ [(T.drop (T.length - k)).take k] := by
  have hn2 : 2 ≤ T.length := hT.1
  have hlen' : T.dropLast.length = T.length - 1 := by simp
  unfold windowsK
  rw [hlen']
  have h1 : T.length + 1 - k = (T.length - 1 + 1 - k) + 1 := by omega
  rw [h1, List.range_succ, List.map_append]
  congr 1
  · refine List.map_congr_left ?_
    intro j hj
    rw [List.mem_range] at hj
    rw [List.dropLast_eq_take, List.drop_take, List.take_take]
    rw [Nat.min_eq_left (by omega)]
  · rw [show T.length - 1 + 1 - k = T.length - k from by omega]
    simp

theorem dcount_dropLast (T : List Nat) (hT : ValidText T) (k : Nat) (hk : 1 ≤ k)
    (hkn : k ≤ T.length - 1) :
    dcount T k = dcount T.dropLast k + 1 := by
  obtain ⟨hn2, hlast, hnz⟩ := hT
  have hlast0 : T.getD (T.length - 1) 0 = 0 := by
    have hlt : T.length - 1 < T.length := by omega
    rw [List.getD_eq_getElem T 0 hlt]
    rw [List.getD_eq_getElem T 1 hlt] at hlast
    exact hlast
  have htake : (T.drop (T.length - k)).take k = T.drop (T.length - k) :=
    List.take_of_length_le (by rw [List.length_drop]; omega)
  unfold dcount
  rw [windows_dropLast T ⟨hn2, hlast, hnz⟩ k hk hkn, List.toFinset_append, htake]
  have hmem0 : (0 : Nat) ∈ T.drop (T.length - k) := by
    have hl : k - 1 < (T.drop (T.length - k)).length := by rw [List.length_drop]; omega
    have hg : (T.drop (T.length - k)).getD (k - 1) 0 = 0 := by
      rw [getD_drop]
      rw [show T.length - k + (k - 1) = T.length - 1 from by omega]
      exact hlast0
    rw [List.getD_eq_getElem _ _ hl] at hg
    rw [← hg]
    exact List.getElem_mem hl
  have hw0 : T.drop (T.length - k) ∉ (windowsK T.dropLast k).toFinset := by
    intro hmem
    rw [List.mem_toFinset] at hmem
    unfold windowsK at hmem
    rw [List.mem_map] at hmem
    obtain ⟨j, _, heq⟩ := hmem
    have h0win : (0 : Nat) ∈ (T.dropLast.drop j).take k := by
      rw [heq]
      exact hmem0
    have h0T : (0 : Nat) ∈ T.dropLast :=
      List.mem_of_mem_drop (List.mem_of_mem_take h0win)
    obtain ⟨m, hm, hv⟩ := List.mem_iff_getElem.mp h0T
    have hm' : m < T.length - 1 := by
      have := hm
      rw [List.length_dropLast] at this
      exact this
    refine hnz m hm' ?_
    rw [List.getD_eq_getElem T 0 (by omega)]
    rw [List.getElem_dropLast] at hv
    exact hv
  rw [List.toFinset_cons, List.toFinset_nil]
  rw [show insert (T.drop (T.length - k)) (∅ : Finset (List Nat)) =
    {T.drop (T.length - k)} from rfl]
  rw [Finset.union_comm, ← Finset.insert_eq]
  exact Finset.card_insert_of_not_mem hw0

/-! ### Closed form of the delta fold -/

/-- The running value `x` of the delta kernel after processing threshold `k`. -/
def Xval (dk : List Nat) : Nat → ℚ
  | 0 => 1
  | k + 1 => Xval dk k + (dk.getD (k + 1) 0 : ℚ) - 1

/-- The running maximum `delta` of the delta kernel after threshold `k`. -/
def Mval (dk : List Nat) : Nat → ℚ
  | 0 => 0
  | 1 => (dk.getD 1 0 : ℚ)
  | k + 2 => maxQ (Mval dk (k + 1)) (Xval dk (k + 2) / ((k + 2 : Nat) : ℚ))

theorem Xval_one (dk : List Nat) : Xval dk 1 = (dk.getD 1 0 : ℚ) := by
  show Xval dk 0 + (dk.getD 1 0 : ℚ) - 1 = _
  rw [show Xval dk 0 = 1 from rfl]
  ring

theorem delta_fold (dk : List Nat) (m : Nat) :
    (List.range' 2 m).foldl
      (fun (st : ℚ × ℚ) k =>
        let x := st.1 + (dk.getD k 0 : ℚ) - 1
        (x, maxQ st.2 (x / (k : ℚ))))
      ((dk.getD 1 0 : ℚ), (dk.getD 1 0 : ℚ)) = (Xval dk (m + 1), Mval dk (m + 1)) := by
  induction m with
  | zero =>
    show ((dk.getD 1 0 : ℚ), (dk.getD 1 0 : ℚ)) = (Xval dk 1, Mval dk 1)
    rw [Xval_one, show Mval dk 1 = (dk.getD 1 0 : ℚ) from rfl]
  | succ m ih =>
    have hc : List.range' 2 (m + 1) = List.range' 2 m ++ [2 + m] := by
      have h := @List.range'_concat 1 2 m
      simpa using h
    rw [hc, List.foldl_append, ih, show 2 + m = m + 2 from by omega]
    rfl

theorem deltaCode_eq_Mval (n : Nat) (lcp : List Nat) (hn : 2 ≤ n) :
    deltaCode n lcp = Mval (dkList n lcp) (n - 1) := by
  have h := delta_fold (dkList n lcp) (n - 2)
  show ((List.range' 2 (n - 2)).foldl
      (fun (st : ℚ × ℚ) k =>
        let x := st.1 + ((dkList n lcp).getD k 0 : ℚ) - 1
        (x, maxQ st.2 (x / (k : ℚ))))
      (((dkList n lcp).getD 1 0 : ℚ), ((dkList n lcp).getD 1 0 : ℚ))).2 =
    Mval (dkList n lcp) (n - 1)
  rw [h, show n - 2 + 1 = n - 1 from by omega]

/-! ### The running value counts distinct windows -/

theorem Xval_cntLt (T sa lcp : List Nat) (hT : ValidText T) (hsa : IsSuffixArray T sa)
    (hlcp : IsLCP T sa lcp) :
    ∀ k, 1 ≤ k → k ≤ T.length - 1 →
      Xval (dkList T.length lcp) k + ((k : ℚ) - 1) = (cntLt T sa k : ℚ) := by
  have hn2 : 2 ≤ T.length := hT.1
  intro k
  induction k with
  | zero => intro h; exact absurd h (by omega)
  | succ k ih =>
    intro _ hk1
    by_cases hk0 : k = 0
    · subst hk0
      rw [Xval_one, cntLt_one_dk T sa lcp hT hsa hlcp (by omega)]
      push_cast
      ring
    · have hk : 1 ≤ k := by omega
      have hkb : k ≤ T.length - 1 := by omega
      have hrec := cntLt_succ_dk T sa lcp hT hsa hlcp k (by omega)
      have hx : Xval (dkList T.length lcp) (k + 1) =
          Xval (dkList T.length lcp) k + ((dkList T.length lcp).getD (k + 1) 0 : ℚ) - 1 := rfl
      have hih := ih hk hkb
      rw [hx, hrec]
      push_cast
      push_cast at hih
      linarith

theorem Xval_dcount (T sa lcp : List Nat) (hT : ValidText T) (hsa : IsSuffixArray T sa)
    (hlcp : IsLCP T sa lcp) (k : Nat) (hk : 1 ≤ k) (hkn : k ≤ T.length - 1) :
    Xval (dkList T.length lcp) k = (dcount T.dropLast k : ℚ) := by
  have h1 := Xval_cntLt T sa lcp hT hsa hlcp k hk hkn
  have h2 := dcount_cntLt T sa hT hsa k hk hkn
  have h3 := dcount_dropLast T hT k hk hkn
  have h2' : (dcount T k : ℚ) + (k : ℚ) = (cntLt T sa k : ℚ) + 2 := by exact_mod_cast h2
  have h3' : (dcount T k : ℚ) = (dcount T.dropLast k : ℚ) + 1 := by exact_mod_cast h3
  linarith

/-! ### Folding with the kernel maximum -/

theorem maxQ_eq_max (a b : ℚ) : maxQ a b = max a b := by
  rw [max_def]
  rfl

theorem foldr_maxQ_nonneg (l : List ℚ) : 0 ≤ l.foldr maxQ 0 := by
  induction l with
  | nil => exact le_refl 0
  | cons a l ih =>
    rw [List.foldr_cons, maxQ_eq_max]
    exact le_trans ih (le_max_right a _)

theorem le_foldr_maxQ (l : List ℚ) (a : ℚ) (h : a ∈ l) : a ≤ l.foldr maxQ 0 := by
  induction l with
  | nil => cases h
  | cons b l ih =>
    rw [List.foldr_cons, maxQ_eq_max]
    rcases List.mem_cons.mp h with rfl | h'
    · exact le_max_left _ _
    · exact le_trans (ih h') (le_max_right _ _)

theorem foldr_maxQ_concat (l : List ℚ) (a : ℚ) (ha : 0 ≤ a) :
    (l ++ [a]).foldr maxQ 0 = maxQ (l.foldr maxQ 0) a := by
  induction l with
  | nil =>
    simp only [List.nil_append, List.foldr_cons, List.foldr_nil]
    rw [maxQ_eq_max, maxQ_eq_max, max_eq_left ha, max_eq_right ha]
  | cons b l ih =>
    rw [List.cons_append, List.foldr_cons, List.foldr_cons, ih,
      maxQ_eq_max, maxQ_eq_max, maxQ_eq_max, maxQ_eq_max, ← max_assoc]

theorem Mval_eq_fold (dk : List Nat) (g : Nat → ℚ) (N : Nat)
    (hg : ∀ k, 1 ≤ k → k ≤ N → g k = Xval dk k / (k : ℚ))
    (hpos : ∀ k, 1 ≤ k → k ≤ N → 0 ≤ Xval dk k) :
    ∀ m, 1 ≤ m → m ≤ N → Mval dk m = ((List.range' 1 m).map g).foldr maxQ 0 := by
  intro m
  induction m with
  | zero => intro h _; exact absurd h (by omega)
  | succ m ih =>
    intro _ hmN
    by_cases hm0 : m = 0
    · subst hm0
      rw [show List.range' 1 1 = [1] from rfl, List.map_cons, List.map_nil,
        List.foldr_cons, List.foldr_nil, hg 1 le_rfl (by omega)]
      rw [show Mval dk 1 = (dk.getD 1 0 : ℚ) from rfl, ← Xval_one dk, maxQ_eq_max]
      rw [Nat.cast_one, div_one, max_eq_left (hpos 1 le_rfl (by omega))]
    · obtain ⟨m', rfl⟩ : ∃ m', m = m' + 1 := ⟨m - 1, by omega⟩
      have hrc : List.range' 1 (m' + 1 + 1) = List.range' 1 (m' + 1) ++ [1 + (m' + 1)] := by
        have h := @List.range'_concat 1 1 (m' + 1)
        simpa using h
      have hXpos : 0 ≤ Xval dk (m' + 2) / ((m' + 2 : Nat) : ℚ) := by
        apply div_nonneg (hpos (m' + 2) (by omega) (by omega))
        positivity
      have hga : 0 ≤ g (1 + (m' + 1)) := by
        rw [hg (1 + (m' + 1)) (by omega) (by omega),
          show 1 + (m' + 1) = m' + 2 from by omega]
        exact hXpos
      rw [hrc, List.map_append, List.map_cons, List.map_nil,
        foldr_maxQ_concat _ _ hga]
      rw [← ih (by omega) (by omega), hg (1 + (m' + 1)) (by omega) (by omega),
        show 1 + (m' + 1) = m' + 2 from by omega]
      rfl

/-! ### The delta kernel against the sentinel-free window maximum -/

theorem deltaCode_eq_deltaSpec (T sa lcp : List Nat) (hT : ValidText T)
    (hsa : IsSuffixArray T sa) (hlcp : IsLCP T sa lcp) :
    deltaCode T.length lcp = deltaSpecFrom T.dropLast := by
  have hn2 : 2 ≤ T.length := hT.1
  have hlen' : T.dropLast.length = T.length - 1 := by simp
  have hg : ∀ k, 1 ≤ k → k ≤ T.length - 1 →
      (dcount T.dropLast k : ℚ) / (k : ℚ) = Xval (dkList T.length lcp) k / (k : ℚ) := by
    intro k hk1 hkN
    rw [Xval_dcount T sa lcp hT hsa hlcp k hk1 hkN]
  have hpos : ∀ k, 1 ≤ k → k ≤ T.length - 1 → 0 ≤ Xval (dkList T.length lcp) k := by
    intro k hk1 hkN
    rw [Xval_dcount T sa lcp hT hsa hlcp k hk1 hkN]
    positivity
  rw [deltaCode_eq_Mval T.length lcp hn2,
    Mval_eq_fold (dkList T.length lcp) (fun k => (dcount T.dropLast k : ℚ) / (k : ℚ))
      (T.length - 1) hg hpos (T.length - 1) (by omega) le_rfl]
  unfold deltaSpecFrom
  rw [hlen']

theorem dcount_le_deltaSpec (T' : List Nat) (k : Nat) (hk : 1 ≤ k) :
    (dcount T' k : ℚ) / (k : ℚ) ≤ deltaSpecFrom T' := by
  by_cases hkn : k ≤ T'.length
  · refine le_foldr_maxQ _ _ ?_
    rw [List.mem_map]
    exact ⟨k, by rw [List.mem_range'_1]; omega, rfl⟩
  · have h0 : dcount T' k = 0 := by
      simp [dcount, windowsK, show T'.length + 1 - k = 0 from by omega]
    rw [h0]
    push_cast
    rw [zero_div]
    unfold deltaSpecFrom
    exact foldr_maxQ_nonneg _

/-- **C5** (corrected).  For every valid text `T` (with trailing sentinel) and
correct suffix/LCP arrays, the delta kernel returns the maximum over
`k ∈ [1, n-1]` of `D'_k / k`, where `D'_k = dcount T.dropLast k` counts the
distinct length-`k` substrings of the text with the sentinel **excluded**
(not included, as the spec claims), and every quotient `D'_k / k` for `k ≥ 1`
is bounded by the returned value. -/
theorem delta_code_eq_max_excl (T sa lcp : List Nat) (hT : ValidText T)
    (hsa : IsSuffixArray T sa) (hlcp : IsLCP T sa lcp) :
    deltaCode T.length lcp = deltaSpecFrom T.dropLast ∧
      ∀ k, 1 ≤ k → (dcount T.dropLast k : ℚ) / (k : ℚ) ≤ deltaCode T.length lcp := by
  have h := deltaCode_eq_deltaSpec T sa lcp hT hsa hlcp
  refine ⟨h, ?_⟩
  intro k hk
  rw [h]
  exact dcount_le_deltaSpec T.dropLast k hk

theorem delta_code_eq_max_excl_witness :
    ValidText [97, 0] ∧ IsSuffixArray [97, 0] [1, 0] ∧ IsLCP [97, 0] [1, 0] [0, 0] ∧
      (deltaCode (List.length [97, 0]) [0, 0] = deltaSpecFrom (List.dropLast [97, 0]) ∧
        ∀ k, 1 ≤ k →
          (dcount (List.dropLast [97, 0]) k : ℚ) / (k : ℚ) ≤
            deltaCode (List.length [97, 0]) [0, 0]) :=
  ⟨by decide, by decide, by decide,
    delta_code_eq_max_excl [97, 0] [1, 0] [0, 0] (by decide) (by decide) (by decide)⟩

/-- On input `a` the loaded text is `a·0`; the kernel prints `delta = 1`
(the sentinel-excluded maximum) although the sentinel-included maximum of
`D_k / k` is `2`, refuting the spec's "sentinel included" reading. -/
theorem delta_sentinel_included_fails_on_a :
    ValidText [97, 0] ∧ IsSuffixArray [97, 0] [1, 0] ∧ IsLCP [97, 0] [1, 0] [0, 0] ∧
      deltaCode 2 [0, 0] = 1 ∧ deltaSpecFrom [97, 0] = 2 ∧
      deltaCode 2 [0, 0] ≠ deltaSpecFrom [97, 0] := by
  have h1 : deltaCode 2 [0, 0] = 1 := by
    norm_num [deltaCode, dkList, List.range', maxQ]
  have h2 : deltaSpecFrom [97, 0] = 2 := by
    norm_num [deltaSpecFrom, List.range', maxQ,
      show dcount [97, 0] 1 = 2 from by decide,
      show dcount [97, 0] 2 = 1 from by decide]
  exact ⟨by decide, by decide, by decide, h1, h2, by rw [h1, h2]; norm_num⟩

end Repetitiveness
